import Mathlib

/-!
Verification of the t5-social-bot core against its specification.

Shallow embedding of:
* `src/helpers/visit_calculator.py` (visit accumulator),
* `src/helpers/business_logic/ping_pong_calculator.py` (ranking ladder),
* `src/integrations/google/sheets/indexes/*.py` and
  `src/integrations/google/sheets/contracts/index.py` (index layer).

Timestamps are modelled as `Int` minutes (Python `datetime` is totally
ordered and supports adding a `timedelta`; 8 hours = 480 minutes).
Calendar months are modelled by an arbitrary month-assignment function
`Int → Month` (Python's `VisitCalculator.month` maps a datetime to the
first day of its calendar month; only its values matter to the code).
-/

set_option maxHeartbeats 1000000

namespace T5Bot

/-! ### Visit accumulator: `src/helpers/visit_calculator.py` -/

/-- `timedelta(hours=8)` in minutes. -/
def eightHours : Int := 480

/-- The acceptance loop of `VisitCalculator._clean_visits` (lines 105-110):
keep a visit iff it is at or after `next_allowed_visit`, then move
`next_allowed_visit` to 8 hours after the kept visit. -/
def cleanVisitsGo (nextAllowed : Int) : List Int → List Int
  | [] => []
  | v :: vs =>
    if nextAllowed ≤ v then v :: cleanVisitsGo (v + eightHours) vs
    else cleanVisitsGo nextAllowed vs

/-- Python `sorted` on timestamps (ascending, stable; `insertionSort` is a
stable sort, hence extensionally equal to it). -/
def sortTimes (l : List Int) : List Int := List.insertionSort (· ≤ ·) l

/-- `VisitCalculator._clean_visits` (lines 88-112): drop visits not strictly
newer than the stored last visit, sort, then enforce the 8-hour gap.  When
there is no stored last visit the first sorted visit is immediately allowed
(`next_allowed_visit = new_visits[0]`). -/
def cleanVisits (visits : List Int) (lastVisit : Option Int) : List Int :=
  let newVisits :=
    match lastVisit with
    | some l => visits.filter (fun v => decide (l < v))
    | none => visits
  if newVisits = [] then []
  else
    let sortedVisits := sortTimes newVisits
    let nextAllowed :=
      match lastVisit with
      | some l => l + eightHours
      | none => sortedVisits.headD 0
    cleanVisitsGo nextAllowed sortedVisits

variable {Month : Type} [DecidableEq Month]

/-- Python dict assignment `d[k] = v`: replace the value in place if the key
exists, otherwise append the pair. -/
def assocUpsert (d : List (Month × Nat)) (k : Month) (v : Nat) : List (Month × Nat) :=
  if d.any (fun p => p.1 = k) then d.map (fun p => if p.1 = k then (k, v) else p)
  else d ++ [(k, v)]

/-- One run of `itertools.groupby`: consume elements while they map to the
current month `m`, counting them. -/
def runsAux (f : Int → Month) (m : Month) (n : Nat) : List Int → List (Month × Nat)
  | [] => [(m, n)]
  | v :: vs =>
    if f v = m then runsAux f m (n + 1) vs
    else (m, n) :: runsAux f (f v) 1 vs

/-- `itertools.groupby` by month with run lengths. -/
def runsBy (f : Int → Month) : List Int → List (Month × Nat)
  | [] => []
  | v :: vs => runsAux f (f v) 1 vs

/-- `VisitCalculator._count_visits_by_month` (lines 114-118): group the
sorted visits by month and build the dict of run lengths. -/
def countVisitsByMonth (f : Int → Month) (visits : List Int) : List (Month × Nat) :=
  (runsBy f (sortTimes visits)).foldl (fun d p => assocUpsert d p.1 p.2) []

/-- Python `d.get(m, 0)` on a month-count dict. -/
def lookupCount (d : List (Month × Nat)) (m : Month) : Nat :=
  ((d.find? (fun p => p.1 = m)).map Prod.snd).getD 0

/-- `data.models.visits_entry.VisitsEntry`, restricted to one user: the
stored last visit and the month → count mapping (reads in the code go
through `visits_by_month.get(month, 0)`, so the mapping is modelled as a
total function defaulting to 0). -/
structure VisitsEntry (Month : Type) where
  lastVisit : Option Int
  visits : Month → Nat

/-- A checkpoint configuration: list of (visit threshold, points). -/
abbrev Checkpoints := List (Nat × Nat)

/-- `VisitCalculator._reach_checkpoints` (lines 120-121):
`{visits: points for visits, points in checkpoints if start < visits <= end}`. -/
def reachCheckpoints (cps : Checkpoints) (a b : Nat) : Checkpoints :=
  cps.filter (fun c => decide (a < c.1) && decide (c.1 ≤ b))

/-- `VisitCalculator._add_user_visits` (lines 61-86) for one user: clean the
raw batch; if nothing survives return the entry unchanged and no
checkpoints; otherwise add the per-month counts (`VisitsEntry.add_visits`),
set `last_visit` to the last clean visit, and collect the non-empty
checkpoint sets of each touched month. -/
def addUserVisits (cps : Checkpoints) (f : Int → Month) (entry : VisitsEntry Month)
    (raw : List Int) : VisitsEntry Month × List (Month × Checkpoints) :=
  let clean := cleanVisits raw entry.lastVisit
  if h : clean = [] then (entry, [])
  else
    let vbm := countVisitsByMonth f clean
    let updated : VisitsEntry Month :=
      { lastVisit := some (clean.getLast h)
        visits := fun m => entry.visits m + lookupCount vbm m }
    let monthCps := (vbm.map Prod.fst).filterMap fun m =>
      let r := reachCheckpoints cps (entry.visits m) (updated.visits m)
      if r = [] then none else some (m, r)
    (updated, monthCps)

/-! ### Deduplication as worded by the spec (claim C3) -/

/-- The dedup rule as the spec words it: walk the batch in ascending time
order and keep a timestamp iff it is strictly after the stored last visit
`l` and at least 8 hours after the previously accepted timestamp (`l`
itself, or the prior accepted timestamp of this batch). -/
def specDedupGo (l prev : Int) : List Int → List Int
  | [] => []
  | v :: vs =>
    if l < v ∧ prev + eightHours ≤ v then v :: specDedupGo l v vs
    else specDedupGo l prev vs

/-- The spec's whole dedup step over a raw batch. -/
def specDedup (batch : List Int) (l : Int) : List Int := specDedupGo l l (sortTimes batch)

lemma specDedupGo_eq_nil (l prev : Int) (vs : List Int) (h : ∀ v ∈ vs, ¬ l < v) :
    specDedupGo l prev vs = [] := by
  induction vs generalizing prev with
  | nil => rfl
  | cons v vs ih =>
    have hv : ¬ l < v := h v (by simp)
    simp only [specDedupGo, if_neg (by tauto : ¬ (l < v ∧ prev + eightHours ≤ v))]
    exact ih prev fun w hw => h w (by simp [hw])

lemma cleanVisitsGo_filter_eq (l : Int) (vs : List Int) :
    ∀ prev : Int, l ≤ prev →
      cleanVisitsGo (prev + eightHours) (vs.filter (fun v => decide (l < v))) =
        specDedupGo l prev vs := by
  induction vs with
  | nil => intro prev _; rfl
  | cons v vs ih =>
    intro prev hprev
    by_cases hlv : l < v
    · by_cases hp : prev + eightHours ≤ v
      · have hlv' : l ≤ v := le_of_lt hlv
        simp only [List.filter_cons, decide_eq_true hlv, cleanVisitsGo, if_pos hp,
          specDedupGo, if_pos (And.intro hlv hp)]
        exact congrArg (v :: ·) (ih v hlv')
      · simp only [List.filter_cons, decide_eq_true hlv, cleanVisitsGo, if_neg hp,
          specDedupGo, if_neg (by tauto : ¬ (l < v ∧ prev + eightHours ≤ v))]
        exact ih prev hprev
    · simp only [List.filter_cons, decide_eq_false hlv, cond_false,
        specDedupGo, if_neg (by tauto : ¬ (l < v ∧ prev + eightHours ≤ v))]
      exact ih prev hprev

lemma sorted_sortTimes (l : List Int) : (sortTimes l).Sorted (· ≤ ·) :=
  List.sorted_insertionSort _ l

lemma perm_sortTimes (l : List Int) : List.Perm (sortTimes l) l :=
  List.perm_insertionSort _ l

lemma sortTimes_filter (p : Int → Bool) (l : List Int) :
    sortTimes (l.filter p) = (sortTimes l).filter p := by
  apply List.eq_of_perm_of_sorted (r := ((· ≤ ·) : Int → Int → Prop))
  · exact (perm_sortTimes _).trans (((perm_sortTimes l).filter p).symm)
  · exact sorted_sortTimes _
  · exact (sorted_sortTimes l).filter p

/-- **C3** (confirmed).  The deduplication step of the visit accumulator
keeps exactly the timestamps described by the spec: those strictly after
the stored last visit `l` and at least 8 hours after the previously
accepted timestamp (`l` itself, or the prior accepted timestamp within the
batch, taking the batch in ascending order).  In particular two check-ins
3 hours apart (minutes 1000 and 1180) yield one visit, and two check-ins
9 hours apart (minutes 1000 and 1540) yield two. -/
theorem clean_visits_matches_spec_dedup :
    (∀ (visits : List Int) (l : Int), cleanVisits visits (some l) = specDedup visits l)
    ∧ cleanVisits [1000, 1180] (some 0) = [1000]
    ∧ cleanVisits [1000, 1540] (some 0) = [1000, 1540] := by
  refine ⟨fun visits l => ?_, by decide, by decide⟩
  unfold cleanVisits specDedup
  by_cases h : visits.filter (fun v => decide (l < v)) = []
  · rw [if_pos h]
    have hall : ∀ v ∈ sortTimes visits, ¬ l < v := by
      intro v hv
      have hv' : v ∈ visits := (perm_sortTimes visits).mem_iff.mp hv
      have := List.filter_eq_nil_iff.mp h v hv'
      simpa using this
    exact (specDedupGo_eq_nil l l _ hall).symm
  · rw [if_neg h]
    show cleanVisitsGo (l + eightHours) (sortTimes (visits.filter fun v => decide (l < v))) = _
    rw [sortTimes_filter]
    exact cleanVisitsGo_filter_eq l (sortTimes visits) l le_rfl

lemma mem_reachCheckpoints {cps : Checkpoints} {a b t pts : Nat} :
    (t, pts) ∈ reachCheckpoints cps a b ↔ (t, pts) ∈ cps ∧ a < t ∧ t ≤ b := by
  simp [reachCheckpoints, List.mem_filter, and_assoc]

lemma lookupCount_ne_zero_mem {d : List (Month × Nat)} {m : Month}
    (h : lookupCount d m ≠ 0) : m ∈ d.map Prod.fst := by
  unfold lookupCount at h
  cases hf : d.find? (fun p => p.1 = m) with
  | none => rw [hf] at h; simp at h
  | some q =>
    have hq : q.1 = m := by simpa using List.find?_some hf
    exact hq ▸ List.mem_map_of_mem Prod.fst (List.mem_of_find?_eq_some hf)

/-- **C1** (amended).  One call of the visit accumulator reports checkpoint
`t` as reached for month `m` exactly when the stored count before the call
is *strictly below* `t` and the stored count after the call is *at least*
`t` (the code filters `start < visits <= end`), not "before ≤ t and
after > t" as the claim words it.  The spec's own examples still hold:
with thresholds {5:10, 10:20} going from 4 stored visits to 6 in one batch
reaches only the 5-checkpoint, and going from 4 to 11 reaches both. -/
theorem add_user_visits_checkpoint_iff :
    (∀ {Month : Type} [DecidableEq Month] (cps : Checkpoints) (f : Int → Month)
      (entry : VisitsEntry Month) (raw : List Int) (m : Month) (t pts : Nat),
      (∃ r, (m, r) ∈ (addUserVisits cps f entry raw).2 ∧ (t, pts) ∈ r) ↔
        ((t, pts) ∈ cps ∧ entry.visits m < t ∧
          t ≤ (addUserVisits cps f entry raw).1.visits m))
    ∧ (addUserVisits [(5, 10), (10, 20)] (fun _ => (0 : Int))
        ⟨none, fun _ => 4⟩ [0, 480]).2 = [(0, [(5, 10)])]
    ∧ (addUserVisits [(5, 10), (10, 20)] (fun _ => (0 : Int))
        ⟨none, fun _ => 4⟩ [0, 480, 960, 1440, 1920, 2400, 2880]).2 =
        [(0, [(5, 10), (10, 20)])] := by
  refine ⟨?_, by decide, by decide⟩
  intro Month _ cps f entry raw m t pts
  by_cases h : cleanVisits raw entry.lastVisit = []
  · simp only [addUserVisits, dif_pos h]
    constructor
    · rintro ⟨r, hr, -⟩
      simp at hr
    · rintro ⟨-, h1, h2⟩
      omega
  · simp only [addUserVisits, dif_neg h]
    constructor
    · rintro ⟨r, hr, htp⟩
      rcases List.mem_filterMap.mp hr with ⟨m', _, hg⟩
      by_cases hre : reachCheckpoints cps (entry.visits m')
          (entry.visits m' +
            lookupCount (countVisitsByMonth f (cleanVisits raw entry.lastVisit)) m') = []
      · rw [if_pos hre] at hg
        exact absurd hg (by simp)
      · rw [if_neg hre] at hg
        simp only [Option.some.injEq, Prod.mk.injEq] at hg
        obtain ⟨rfl, rfl⟩ := hg
        exact mem_reachCheckpoints.mp htp
    · rintro ⟨hcps, hlt, hle⟩
      have hvm : lookupCount (countVisitsByMonth f (cleanVisits raw entry.lastVisit)) m ≠ 0 := by
        omega
      have hmem := mem_reachCheckpoints.mpr ⟨hcps, hlt, hle⟩
      refine ⟨reachCheckpoints cps (entry.visits m)
        (entry.visits m +
          lookupCount (countVisitsByMonth f (cleanVisits raw entry.lastVisit)) m), ?_, hmem⟩
      apply List.mem_filterMap.mpr
      exact ⟨m, lookupCount_ne_zero_mem hvm,
        by rw [if_neg (List.ne_nil_of_mem hmem)]⟩

/-- **C1** counterexample to the claim as stated.  With thresholds
{5: 10pts}, a user whose stored count for the month is 4 and one new
visit: the call reports checkpoint 5 as reached, yet the claimed condition
"stored-before ≤ 5 and stored-after > 5" is false (stored-after is 5,
not > 5). -/
theorem add_user_visits_checkpoint_counterexample :
    (∃ r, ((0 : Int), r) ∈
        (addUserVisits [(5, 10)] (fun _ => (0 : Int)) ⟨none, fun _ => 4⟩ [0]).2 ∧
        ((5 : Nat), (10 : Nat)) ∈ r)
    ∧ ¬ ((4 : Nat) ≤ 5 ∧
        (addUserVisits [(5, 10)] (fun _ => (0 : Int)) ⟨none, fun _ => 4⟩ [0]).1.visits 0 > 5) :=
  ⟨⟨[(5, 10)], by decide, by decide⟩, by decide⟩

/-- **C7** (confirmed).  A batch that is empty, or whose timestamps are all
removed by deduplication, is a no-op for the user: `_add_user_visits`
returns the stored entry itself (same last-visit, same per-month counts)
and reports no checkpoints, so `save_all` rewrites the unchanged entry. -/
theorem add_user_visits_noop (cps : Checkpoints) (f : Int → Month)
    (entry : VisitsEntry Month) (raw : List Int)
    (h : raw = [] ∨ cleanVisits raw entry.lastVisit = []) :
    addUserVisits cps f entry raw = (entry, []) := by
  have hc : cleanVisits raw entry.lastVisit = [] := by
    rcases h with rfl | h
    · cases hl : entry.lastVisit <;> simp [cleanVisits, hl]
    · exact h
  simp [addUserVisits, hc]

/-- Witness for C7: a concrete batch (one check-in at minute 500, stored
last visit at minute 1000) that is fully removed by deduplication, and the
resulting no-op. -/
theorem add_user_visits_noop_witness :
    (([500] : List Int) = [] ∨ cleanVisits [500] (some 1000) = [])
    ∧ addUserVisits ([] : Checkpoints) (fun _ => (0 : Int))
        ⟨some 1000, fun _ => 3⟩ [500] = (⟨some 1000, fun _ => 3⟩, []) :=
  ⟨Or.inr (by decide),
    add_user_visits_noop ([] : Checkpoints) (fun _ => (0 : Int))
      ⟨some 1000, fun _ => 3⟩ [500] (Or.inr (by decide))⟩

/-! ### Ranking ladder: `src/helpers/business_logic/ping_pong_calculator.py`

The stored standings live in a `UniqueIndex` keyed by player name (a Python
dict), modelled as a list of standings with pairwise-distinct names in dict
iteration order.  Ratings are Python floats combined by the Elo formula;
the formula itself uses transcendental arithmetic, so the embedding is
parameterised by an arbitrary rating function `elo : Rat → Rat → Rat × Rat`
(the claims quantify over every sequence of results and do not depend on
the numeric values the formula produces). -/

/-- `data.models.ping_pong_standing.PingPongStanding`.  Python equality and
hashing on this dataclass compare `player_name` only. -/
structure Standing where
  name : String
  rating : Rat
  wins : Nat
  losses : Nat
  rank : Nat
  username : String
deriving DecidableEq, Repr

/-- First-occurrence replacement, as `list.index` + assignment does in
`PingPongCalculator._splice_into_list` (Python equality is by name). -/
def replaceFirstStanding : List Standing → Standing → List Standing
  | [], _ => []
  | x :: xs, s => if x.name = s.name then s :: xs else x :: replaceFirstStanding xs s

/-- `PingPongCalculator._splice_into_list` (lines 121-126): replace the
stale entry with the same player name, or append if there is none. -/
def spliceIntoList (l : List Standing) (s : Standing) : List Standing :=
  if l.any (fun x => x.name = s.name) then replaceFirstStanding l s else l ++ [s]

/-- Sorting key of `all_standings.sort(key=lambda s: s.rating, reverse=True)`:
descending rating.  Python's sort is stable and so is `insertionSort`. -/
def ratingDescRel (a b : Standing) : Prop := b.rating ≤ a.rating

instance : DecidableRel ratingDescRel := fun a b =>
  inferInstanceAs (Decidable (b.rating ≤ a.rating))

instance : IsTotal Standing ratingDescRel :=
  ⟨fun a b => le_total b.rating a.rating⟩

instance : IsTrans Standing ratingDescRel :=
  ⟨fun _ _ _ h1 h2 => le_trans h2 h1⟩

/-- The global re-sort by descending rating. -/
def sortDesc (l : List Standing) : List Standing := List.insertionSort ratingDescRel l

/-- The scan of `_calculate_rank_changes` (lines 108-111): walk the sorted
list with `correct_rank = i + 1` and collect a rank-corrected copy of every
standing whose saved rank differs. -/
def collectChanges : Nat → List Standing → List Standing
  | _, [] => []
  | i, s :: rest =>
    if s.rank ≠ i then { s with rank := i } :: collectChanges (i + 1) rest
    else collectChanges (i + 1) rest

/-- The fully re-ranked sorted list: every standing with
`rank = position + 1`.  (Reference list used to state correctness; the code
persists only the entries of `collectChanges`.) -/
def assignRanks : Nat → List Standing → List Standing
  | _, [] => []
  | i, s :: rest => { s with rank := i } :: assignRanks (i + 1) rest

/-- `PingPongCalculator._calculate_rank_changes` (lines 95-119): splice the
two updated standings into the full list, sort by descending rating,
collect every standing whose saved rank differs from its recomputed rank,
then append the winner and loser if not already present (membership uses
Python dataclass equality, i.e. by player name). -/
def calcRankChanges (allStandings : List Standing) (w l : Standing) : List Standing :=
  let all2 := spliceIntoList (spliceIntoList allStandings w) l
  let u1 := collectChanges 1 (sortDesc all2)
  let u2 := if u1.any (fun s => s.name = w.name) then u1 else u1 ++ [w]
  if u2.any (fun s => s.name = l.name) then u2 else u2 ++ [l]

/-- `data.models.user.User`, restricted to the fields the calculator reads. -/
structure PPUser where
  fullName : String
  telegramUsername : String

/-- `PingPongCalculator.get_standing` / `_init_standing`: the stored
standing for the player, or a fresh one with the Elo base rating 400
(dataclass defaults: wins 0, losses 0, rank 1). -/
def getStanding (state : List Standing) (u : PPUser) : Standing :=
  (state.find? (fun s => s.name = u.fullName)).getD
    ⟨u.fullName, 400, 0, 0, 1, u.telegramUsername⟩

/-- The partially-updated winner standing of a `game_over` call (new
rating, one more win; rank still the stored one). -/
def partialWinner (elo : Rat → Rat → Rat × Rat) (state : List Standing)
    (w l : PPUser) : Standing :=
  { getStanding state w with
    rating := (elo (getStanding state w).rating (getStanding state l).rating).1
    wins := (getStanding state w).wins + 1 }

/-- The partially-updated loser standing (new rating, one more loss). -/
def partialLoser (elo : Rat → Rat → Rat × Rat) (state : List Standing)
    (w l : PPUser) : Standing :=
  { getStanding state l with
    rating := (elo (getStanding state w).rating (getStanding state l).rating).2
    losses := (getStanding state l).losses + 1 }

/-- The update batch computed by one `game_over` call (lines 36-51): read
both standings (materialising defaults), apply the rating function,
increment win/loss counts, and recompute ranks. -/
def gameOverUpdates (elo : Rat → Rat → Rat × Rat) (state : List Standing)
    (w l : PPUser) : List Standing :=
  calcRankChanges state (partialWinner elo state w l) (partialLoser elo state w l)

/-- Erase the (unique) entry with the given name — Python `del d[key]`. -/
def eraseFirstByName : List Standing → String → List Standing
  | [], _ => []
  | x :: xs, n => if x.name = n then xs else x :: eraseFirstByName xs n

/-- `PingPongStandingsTable.save_all` as it affects the by-name index:
existing names go through `update_all` (the index deletes the old entry and
re-inserts the new one, moving it to the end of dict order), new names are
appended by `insert_all`.  (`update_all` skips a model identical to the
stored one; `game_over` batches never contain one, since wins, losses or
rank always change.) -/
def saveAll (state updates : List Standing) : List Standing :=
  let toUpdate := updates.filter (fun u => state.any (fun s => s.name = u.name))
  let toInsert := updates.filter (fun u => !state.any (fun s => s.name = u.name))
  (toUpdate.foldl (fun st u => eraseFirstByName st u.name) state) ++ toUpdate ++ toInsert

/-- The stored standings after one `game_over` call settles. -/
def gameOver (elo : Rat → Rat → Rat × Rat) (state : List Standing)
    (w l : PPUser) : List Standing :=
  saveAll state (gameOverUpdates elo state w l)

/-- A sequence of `game_over` calls. -/
def runGames (elo : Rat → Rat → Rat × Rat) (state : List Standing)
    (games : List (PPUser × PPUser)) : List Standing :=
  games.foldl (fun st g => gameOver elo st g.1 g.2) state

/-- The stored standings have pairwise-distinct player names (invariant of
the by-name unique index). -/
def namesNodup (state : List Standing) : Prop := (state.map Standing.name).Nodup

/-- Ranks are exactly {1..N} and consistent with descending rating. -/
def ranksPerfect (state : List Standing) : Prop :=
  List.Perm (state.map Standing.rank) (List.range' 1 state.length) ∧
    ∀ a ∈ state, ∀ b ∈ state, b.rating < a.rating → a.rank < b.rank

/-- `PingPongCalculator._advance_streak` (lines 87-93). -/
def advanceStreak (streak change : Int) : Int :=
  if streak * change > 0 then streak + change else change

/-- **C8** (confirmed).  A result in the same direction as the current
streak advances it by ±1; a result opposite the current streak's sign
resets it to ±1 in the new direction (`_advance_streak`: continue when
`streak * change > 0`, else reset to `change`). -/
theorem advance_streak_spec (s : Int) :
    (0 < s → advanceStreak s 1 = s + 1) ∧ (0 < s → advanceStreak s (-1) = -1) ∧
    (s < 0 → advanceStreak s (-1) = s - 1) ∧ (s < 0 → advanceStreak s 1 = 1) := by
  unfold advanceStreak
  refine ⟨fun h => ?_, fun h => ?_, fun h => ?_, fun h => ?_⟩
  · rw [mul_one, if_pos h]
  · rw [mul_neg_one, if_neg (by omega : ¬ (-s > 0))]
  · rw [mul_neg_one, if_pos (by omega : -s > 0)]
    omega
  · rw [mul_one, if_neg (by omega : ¬ (s > 0))]

/-- Witness for C8: a player at streak +2 who wins reaches +3; a player at
streak +2 who loses resets to -1. -/
theorem advance_streak_spec_witness :
    advanceStreak 2 1 = 3 ∧ advanceStreak 2 (-1) = -1 :=
  ⟨by simpa using (advance_streak_spec 2).1 (by decide),
    (advance_streak_spec 2).2.1 (by decide)⟩

/-! #### Name-indexed list lemmas for the standings state -/

lemma any_name_iff {l : List Standing} {n : String} :
    (l.any fun s => s.name = n) = true ↔ n ∈ l.map Standing.name := by
  rw [List.any_eq_true]
  constructor
  · rintro ⟨x, hx, he⟩
    exact List.mem_map.mpr ⟨x, hx, of_decide_eq_true he⟩
  · intro h
    rcases List.mem_map.mp h with ⟨x, hx, he⟩
    exact ⟨x, hx, decide_eq_true he⟩

lemma names_replaceFirst (l : List Standing) (s : Standing) :
    (replaceFirstStanding l s).map Standing.name = l.map Standing.name := by
  induction l with
  | nil => rfl
  | cons y ys ih =>
    by_cases hy : y.name = s.name
    · simp [replaceFirstStanding, hy]
    · simp [replaceFirstStanding, hy, ih]

lemma mem_replaceFirst {l : List Standing} {s : Standing}
    (hn : (l.map Standing.name).Nodup) (hmem : s.name ∈ l.map Standing.name) (x : Standing) :
    x ∈ replaceFirstStanding l s ↔ x = s ∨ (x ∈ l ∧ x.name ≠ s.name) := by
  induction l with
  | nil => simp at hmem
  | cons y ys ih =>
    simp only [List.map_cons, List.nodup_cons] at hn
    by_cases hy : y.name = s.name
    · rw [replaceFirstStanding, if_pos hy]
      simp only [List.mem_cons]
      constructor
      · rintro (rfl | hx)
        · exact Or.inl rfl
        · refine Or.inr ⟨Or.inr hx, fun hxe => ?_⟩
          exact hn.1 (hy ▸ hxe ▸ List.mem_map_of_mem Standing.name hx)
      · rintro (rfl | ⟨rfl | hx, hne⟩)
        · exact Or.inl rfl
        · exact absurd hy hne
        · exact Or.inr hx
    · rw [replaceFirstStanding, if_neg hy]
      have hmem' : s.name ∈ ys.map Standing.name := by
        rcases List.mem_cons.mp hmem with h | h
        · exact absurd h.symm hy
        · exact h
      simp only [List.mem_cons, ih hn.2 hmem']
      constructor
      · rintro (rfl | h | h)
        · exact Or.inr ⟨Or.inl rfl, hy⟩
        · exact Or.inl h
        · exact Or.inr ⟨Or.inr h.1, h.2⟩
      · rintro (h | ⟨rfl | hx, hne⟩)
        · exact Or.inr (Or.inl h)
        · exact Or.inl rfl
        · exact Or.inr (Or.inr ⟨hx, hne⟩)

lemma names_splice (l : List Standing) (s : Standing) :
    (spliceIntoList l s).map Standing.name =
      if s.name ∈ l.map Standing.name then l.map Standing.name
      else l.map Standing.name ++ [s.name] := by
  unfold spliceIntoList
  by_cases h : s.name ∈ l.map Standing.name
  · rw [if_pos (any_name_iff.mpr h), if_pos h, names_replaceFirst]
  · rw [if_neg (fun hc => h (any_name_iff.mp hc)), if_neg h, List.map_append]
    rfl

lemma namesNodup_splice {l : List Standing} (s : Standing)
    (hn : (l.map Standing.name).Nodup) :
    ((spliceIntoList l s).map Standing.name).Nodup := by
  rw [names_splice]
  by_cases h : s.name ∈ l.map Standing.name
  · rwa [if_pos h]
  · rw [if_neg h]
    refine List.Nodup.append hn (List.nodup_singleton _) ?_
    intro a ha hb
    rw [List.mem_singleton] at hb
    exact h (hb ▸ ha)

lemma mem_splice {l : List Standing} {s : Standing}
    (hn : (l.map Standing.name).Nodup) (x : Standing) :
    x ∈ spliceIntoList l s ↔ x = s ∨ (x ∈ l ∧ x.name ≠ s.name) := by
  unfold spliceIntoList
  by_cases h : s.name ∈ l.map Standing.name
  · rw [if_pos (any_name_iff.mpr h)]
    exact mem_replaceFirst hn h x
  · rw [if_neg (fun hc => h (any_name_iff.mp hc))]
    simp only [List.mem_append, List.mem_singleton]
    constructor
    · rintro (hx | rfl)
      · exact Or.inr ⟨hx, fun hxe => h (hxe ▸ List.mem_map_of_mem Standing.name hx)⟩
      · exact Or.inl rfl
    · rintro (rfl | ⟨hx, -⟩)
      · exact Or.inr rfl
      · exact Or.inl hx

lemma names_assignRanks (k : Nat) (l : List Standing) :
    (assignRanks k l).map Standing.name = l.map Standing.name := by
  induction l generalizing k with
  | nil => rfl
  | cons x xs ih => simp [assignRanks, ih]

lemma ranks_assignRanks (k : Nat) (l : List Standing) :
    (assignRanks k l).map Standing.rank = List.range' k l.length := by
  induction l generalizing k with
  | nil => rfl
  | cons x xs ih => simp [assignRanks, List.range'_succ, ih]

lemma rank_le_of_mem_assignRanks {k : Nat} {l : List Standing} {x : Standing}
    (h : x ∈ assignRanks k l) : k ≤ x.rank := by
  induction l generalizing k with
  | nil => simp [assignRanks] at h
  | cons y ys ih =>
    rcases List.mem_cons.mp h with rfl | h
    · exact le_refl _
    · exact le_trans (Nat.le_succ k) (ih h)

lemma rating_mem_of_mem_assignRanks {k : Nat} {l : List Standing} {x : Standing}
    (h : x ∈ assignRanks k l) : x.rating ∈ l.map Standing.rating := by
  induction l generalizing k with
  | nil => simp [assignRanks] at h
  | cons y ys ih =>
    rcases List.mem_cons.mp h with rfl | h
    · exact List.mem_cons_self _ _
    · exact List.mem_cons_of_mem _ (ih h)

lemma name_mem_of_mem_assignRanks {k : Nat} {l : List Standing} {x : Standing}
    (h : x ∈ assignRanks k l) : x.name ∈ l.map Standing.name := by
  rw [← names_assignRanks k l]
  exact List.mem_map_of_mem Standing.name h

lemma names_collectChanges_sublist (k : Nat) (l : List Standing) :
    ((collectChanges k l).map Standing.name).Sublist (l.map Standing.name) := by
  induction l generalizing k with
  | nil => simp [collectChanges]
  | cons x xs ih =>
    rw [collectChanges]
    by_cases h : x.rank ≠ k
    · rw [if_pos h]
      simp only [List.map_cons]
      exact List.Sublist.cons₂ _ (ih (k + 1))
    · rw [if_neg h]
      exact List.Sublist.trans (ih (k + 1)) (List.sublist_cons_self _ _)

lemma name_mem_of_mem_collectChanges {k : Nat} {l : List Standing} {x : Standing}
    (h : x ∈ collectChanges k l) : x.name ∈ l.map Standing.name :=
  (names_collectChanges_sublist k l).mem (List.mem_map_of_mem Standing.name h)

/-- Structure eta for rank update. -/
lemma standing_rank_eta (x : Standing) (k : Nat) (h : x.rank = k) :
    ({ x with rank := k } : Standing) = x := by
  cases x
  simp_all

/-- The fully re-ranked list decomposes as: changed entries (as collected
by the code's scan) plus unchanged entries of the input. -/
lemma mem_assignRanks_iff (k : Nat) (l : List Standing)
    (hn : (l.map Standing.name).Nodup) (s : Standing) :
    s ∈ assignRanks k l ↔
      s ∈ collectChanges k l ∨
        (s ∈ l ∧ s.name ∉ (collectChanges k l).map Standing.name) := by
  induction l generalizing k with
  | nil => simp [assignRanks, collectChanges]
  | cons x xs ih =>
    simp only [List.map_cons, List.nodup_cons] at hn
    have hx : x.name ∉ xs.map Standing.name := hn.1
    rw [assignRanks, collectChanges]
    by_cases hr : x.rank ≠ k
    · rw [if_pos hr]
      simp only [List.mem_cons, List.map_cons]
      constructor
      · rintro (rfl | hs)
        · exact Or.inl (Or.inl rfl)
        · rcases (ih (k + 1) hn.2).mp hs with h | ⟨h1, h2⟩
          · exact Or.inl (Or.inr h)
          · have hne : s.name ≠ x.name := by
              intro he
              exact hx (he ▸ List.mem_map_of_mem Standing.name h1)
            refine Or.inr ⟨Or.inr h1, ?_⟩
            intro hc
            rcases hc with he | hc2
            · exact hne he
            · exact h2 hc2
      · rintro (h | ⟨h1, h2⟩)
        · rcases h with rfl | h
          · exact Or.inl rfl
          · exact Or.inr ((ih (k + 1) hn.2).mpr (Or.inl h))
        · have h21 : s.name ≠ x.name := fun he => h2 (Or.inl he)
          have h22 : s.name ∉ (collectChanges (k + 1) xs).map Standing.name :=
            fun he => h2 (Or.inr he)
          rcases h1 with rfl | h1
          · exact absurd rfl h21
          · exact Or.inr ((ih (k + 1) hn.2).mpr (Or.inr ⟨h1, h22⟩))
    · rw [if_neg hr]
      push_neg at hr
      rw [standing_rank_eta x k hr]
      simp only [List.mem_cons]
      constructor
      · rintro (rfl | hs)
        · refine Or.inr ⟨Or.inl rfl, fun hc => ?_⟩
          exact hx ((names_collectChanges_sublist (k + 1) xs).mem hc)
        · rcases (ih (k + 1) hn.2).mp hs with h | ⟨h1, h2⟩
          · exact Or.inl h
          · exact Or.inr ⟨Or.inr h1, h2⟩
      · rintro (h | ⟨rfl | h1, h2⟩)
        · exact Or.inr ((ih (k + 1) hn.2).mpr (Or.inl h))
        · exact Or.inl rfl
        · exact Or.inr ((ih (k + 1) hn.2).mpr (Or.inr ⟨h1, h2⟩))

/-- Name-level characterisation of the scan: a player name appears among
the collected rank changes iff its entry's saved rank differs from its
recomputed rank. -/
lemma name_mem_collectChanges_iff (k : Nat) (l : List Standing)
    (hn : (l.map Standing.name).Nodup) (n : String) :
    n ∈ (collectChanges k l).map Standing.name ↔
      ∃ s ∈ l, s.name = n ∧ ∃ r ∈ assignRanks k l, r.name = n ∧ r.rank ≠ s.rank := by
  induction l generalizing k with
  | nil => simp [assignRanks, collectChanges]
  | cons x xs ih =>
    simp only [List.map_cons, List.nodup_cons] at hn
    have hx : x.name ∉ xs.map Standing.name := hn.1
    rw [collectChanges, assignRanks]
    by_cases hxn : x.name = n
    · subst hxn
      by_cases hr : x.rank ≠ k
      · rw [if_pos hr]
        constructor
        · intro _
          exact ⟨x, List.mem_cons_self _ _, rfl, { x with rank := k },
            List.mem_cons_self _ _, rfl, by simpa using Ne.symm hr⟩
        · intro _
          rw [List.map_cons]
          exact List.mem_cons.mpr (Or.inl rfl)
      · rw [if_neg hr]
        push_neg at hr
        constructor
        · intro h
          exact absurd ((names_collectChanges_sublist (k + 1) xs).mem h) hx
        · rintro ⟨s, hs, hsn, r, hrm, hrn, hne⟩
          have hsx : s = x := by
            rcases List.mem_cons.mp hs with rfl | hs2
            · rfl
            · exact absurd (hsn ▸ List.mem_map_of_mem Standing.name hs2) hx
          have hrx : r = { x with rank := k } := by
            rcases List.mem_cons.mp hrm with rfl | hr2
            · rfl
            · exact absurd (hrn ▸ name_mem_of_mem_assignRanks hr2) hx
          exfalso
          apply hne
          rw [hsx, hrx]
          simpa using hr.symm
    · have base := ih (k + 1) hn.2
      have hside : (∃ s, (s = x ∨ s ∈ xs) ∧ s.name = n ∧
            ∃ r, (r = { x with rank := k } ∨ r ∈ assignRanks (k + 1) xs) ∧
              r.name = n ∧ r.rank ≠ s.rank) ↔
          (∃ s ∈ xs, s.name = n ∧
            ∃ r ∈ assignRanks (k + 1) xs, r.name = n ∧ r.rank ≠ s.rank) := by
        constructor
        · rintro ⟨s, hs1, hsn, r, hr1, hrn, hne⟩
          rcases hs1 with rfl | hs
          · exact absurd hsn hxn
          · rcases hr1 with rfl | hr
            · exact absurd hrn hxn
            · exact ⟨s, hs, hsn, r, hr, hrn, hne⟩
        · rintro ⟨s, hs, hsn, r, hr, hrn, hne⟩
          exact ⟨s, Or.inr hs, hsn, r, Or.inr hr, hrn, hne⟩
      by_cases hr : x.rank ≠ k
      · rw [if_pos hr]
        simp only [List.map_cons, List.mem_cons]
        constructor
        · rintro (he | h)
          · exact absurd he.symm hxn
          · rcases base.mp h with ⟨s, hs, hsn, r, hrm, hrn, hne⟩
            exact ⟨s, Or.inr hs, hsn, r, Or.inr hrm, hrn, hne⟩
        · intro h
          exact Or.inr (base.mpr (hside.mp h))
      · rw [if_neg hr]
        rw [base]
        simp only [List.mem_cons]
        exact hside.symm
/-- Membership in the update batch of `_calculate_rank_changes`: the
collected rank changes, plus the winner and loser when their name is not
already among them. -/
lemma mem_calcRankChanges {state : List Standing} {pw pl : Standing}
    (hwl : pw.name ≠ pl.name) (s : Standing) :
    s ∈ calcRankChanges state pw pl ↔
      s ∈ collectChanges 1 (sortDesc (spliceIntoList (spliceIntoList state pw) pl)) ∨
        (s = pw ∧ pw.name ∉
          (collectChanges 1 (sortDesc (spliceIntoList (spliceIntoList state pw) pl))).map
            Standing.name) ∨
        (s = pl ∧ pl.name ∉
          (collectChanges 1 (sortDesc (spliceIntoList (spliceIntoList state pw) pl))).map
            Standing.name) := by
  simp only [calcRankChanges]
  by_cases hw : pw.name ∈
      (collectChanges 1 (sortDesc (spliceIntoList (spliceIntoList state pw) pl))).map
        Standing.name
  · rw [if_pos (any_name_iff.mpr hw)]
    by_cases hl : pl.name ∈
        (collectChanges 1 (sortDesc (spliceIntoList (spliceIntoList state pw) pl))).map
          Standing.name
    · rw [if_pos (any_name_iff.mpr hl)]
      constructor
      · exact fun h => Or.inl h
      · rintro (h | ⟨rfl, hB⟩ | ⟨rfl, hB⟩)
        · exact h
        · exact absurd hw hB
        · exact absurd hl hB
    · rw [if_neg (fun hc => hl (any_name_iff.mp hc))]
      rw [List.mem_append, List.mem_singleton]
      constructor
      · rintro (h | rfl)
        · exact Or.inl h
        · exact Or.inr (Or.inr ⟨rfl, hl⟩)
      · rintro (h | ⟨rfl, hB⟩ | ⟨rfl, -⟩)
        · exact Or.inl h
        · exact absurd hw hB
        · exact Or.inr rfl
  · rw [if_neg (fun hc => hw (any_name_iff.mp hc))]
    by_cases hl : pl.name ∈
        ((collectChanges 1 (sortDesc (spliceIntoList (spliceIntoList state pw) pl))) ++
          [pw]).map Standing.name
    · have hl1 : pl.name ∈
          (collectChanges 1 (sortDesc (spliceIntoList (spliceIntoList state pw) pl))).map
            Standing.name := by
        rw [List.map_append] at hl
        rcases List.mem_append.mp hl with h | h
        · exact h
        · rw [List.map_singleton, List.mem_singleton] at h
          exact absurd h.symm hwl
      rw [if_pos (any_name_iff.mpr hl)]
      rw [List.mem_append, List.mem_singleton]
      constructor
      · rintro (h | rfl)
        · exact Or.inl h
        · exact Or.inr (Or.inl ⟨rfl, hw⟩)
      · rintro (h | ⟨rfl, -⟩ | ⟨rfl, hB⟩)
        · exact Or.inl h
        · exact Or.inr rfl
        · exact absurd hl1 hB
    · have hl1 : pl.name ∉
          (collectChanges 1 (sortDesc (spliceIntoList (spliceIntoList state pw) pl))).map
            Standing.name := by
        intro hc
        exact hl (by rw [List.map_append]; exact List.mem_append.mpr (Or.inl hc))
      rw [if_neg (fun hc => hl (any_name_iff.mp hc))]
      rw [List.mem_append, List.mem_append, List.mem_singleton, List.mem_singleton]
      constructor
      · rintro ((h | rfl) | rfl)
        · exact Or.inl h
        · exact Or.inr (Or.inl ⟨rfl, hw⟩)
        · exact Or.inr (Or.inr ⟨rfl, hl1⟩)
      · rintro (h | ⟨rfl, -⟩ | ⟨rfl, -⟩)
        · exact Or.inl (Or.inl h)
        · exact Or.inl (Or.inr rfl)
        · exact Or.inr rfl

lemma names_calcRankChanges {state : List Standing} {pw pl : Standing}
    (hwl : pw.name ≠ pl.name) (n : String) :
    n ∈ (calcRankChanges state pw pl).map Standing.name ↔
      n ∈ (collectChanges 1 (sortDesc (spliceIntoList (spliceIntoList state pw) pl))).map
          Standing.name ∨ n = pw.name ∨ n = pl.name := by
  constructor
  · intro h
    rcases List.mem_map.mp h with ⟨s, hs, rfl⟩
    rcases (mem_calcRankChanges hwl s).mp hs with h | ⟨rfl, -⟩ | ⟨rfl, -⟩
    · exact Or.inl (List.mem_map_of_mem _ h)
    · exact Or.inr (Or.inl rfl)
    · exact Or.inr (Or.inr rfl)
  · rintro (h | rfl | rfl)
    · rcases List.mem_map.mp h with ⟨s, hs, rfl⟩
      exact List.mem_map_of_mem _ ((mem_calcRankChanges hwl s).mpr (Or.inl hs))
    · by_cases hB : pw.name ∈
          (collectChanges 1 (sortDesc (spliceIntoList (spliceIntoList state pw) pl))).map
            Standing.name
      · rcases List.mem_map.mp hB with ⟨s, hs, he⟩
        rw [← he]
        exact List.mem_map_of_mem _ ((mem_calcRankChanges hwl s).mpr (Or.inl hs))
      · exact List.mem_map_of_mem _
          ((mem_calcRankChanges hwl pw).mpr (Or.inr (Or.inl ⟨rfl, hB⟩)))
    · by_cases hB : pl.name ∈
          (collectChanges 1 (sortDesc (spliceIntoList (spliceIntoList state pw) pl))).map
            Standing.name
      · rcases List.mem_map.mp hB with ⟨s, hs, he⟩
        rw [← he]
        exact List.mem_map_of_mem _ ((mem_calcRankChanges hwl s).mpr (Or.inl hs))
      · exact List.mem_map_of_mem _
          ((mem_calcRankChanges hwl pl).mpr (Or.inr (Or.inr ⟨rfl, hB⟩)))

lemma nodup_names_calcRankChanges {state : List Standing} {pw pl : Standing}
    (hnc : ((collectChanges 1 (sortDesc (spliceIntoList (spliceIntoList state pw) pl))).map
      Standing.name).Nodup) :
    ((calcRankChanges state pw pl).map Standing.name).Nodup := by
  simp only [calcRankChanges]
  have happend : ∀ (l : List Standing) (x : Standing), (l.map Standing.name).Nodup →
      x.name ∉ l.map Standing.name → ((l ++ [x]).map Standing.name).Nodup := by
    intro l x h1 h2
    rw [List.map_append, List.map_singleton]
    refine List.Nodup.append h1 (List.nodup_singleton _) ?_
    intro a ha hb
    rw [List.mem_singleton] at hb
    exact h2 (hb ▸ ha)
  by_cases hw : (collectChanges 1
      (sortDesc (spliceIntoList (spliceIntoList state pw) pl))).any
        (fun s => s.name = pw.name) = true
  · rw [if_pos hw]
    by_cases hl : (collectChanges 1
        (sortDesc (spliceIntoList (spliceIntoList state pw) pl))).any
          (fun s => s.name = pl.name) = true
    · rw [if_pos hl]
      exact hnc
    · rw [if_neg hl]
      exact happend _ _ hnc (fun hc => hl (any_name_iff.mpr hc))
  · rw [if_neg hw]
    have h2 := happend _ pw hnc (fun hc => hw (any_name_iff.mpr hc))
    by_cases hl : ((collectChanges 1
        (sortDesc (spliceIntoList (spliceIntoList state pw) pl))) ++ [pw]).any
          (fun s => s.name = pl.name) = true
    · rw [if_pos hl]
      exact h2
    · rw [if_neg hl]
      exact happend _ _ h2 (fun hc => hl (any_name_iff.mpr hc))

lemma eraseFirstByName_eq_filter {state : List Standing}
    (hn : (state.map Standing.name).Nodup) (n : String) :
    eraseFirstByName state n = state.filter (fun s => s.name ≠ n) := by
  induction state with
  | nil => rfl
  | cons x xs ih =>
    simp only [List.map_cons, List.nodup_cons] at hn
    by_cases hx : x.name = n
    · rw [eraseFirstByName, if_pos hx, List.filter_cons,
        if_neg (by simpa using hx)]
      symm
      apply List.filter_eq_self.mpr
      intro s hs
      have : s.name ≠ n := by
        intro he
        exact hn.1 ((hx ▸ he) ▸ List.mem_map_of_mem Standing.name hs)
      simpa using this
    · rw [eraseFirstByName, if_neg hx, List.filter_cons, if_pos (by simpa using hx),
        ih hn.2]

lemma nodup_names_filter (p : Standing → Bool) {state : List Standing}
    (hn : (state.map Standing.name).Nodup) :
    ((state.filter p).map Standing.name).Nodup :=
  List.Nodup.sublist (List.Sublist.map _ (List.filter_sublist state)) hn

lemma foldl_erase_eq_filter (us : List Standing) :
    ∀ state : List Standing, (state.map Standing.name).Nodup →
      us.foldl (fun st u => eraseFirstByName st u.name) state =
        state.filter (fun s => !us.any (fun u => u.name = s.name)) := by
  induction us with
  | nil =>
    intro state _
    simp
  | cons u us ih =>
    intro state hn
    rw [List.foldl_cons, eraseFirstByName_eq_filter hn u.name,
      ih _ (nodup_names_filter _ hn), List.filter_filter]
    apply List.filter_congr
    intro s _
    by_cases hsu : s.name = u.name
    · simp [hsu]
    · have hsu2 : ¬ u.name = s.name := fun h => hsu h.symm
      simp [hsu, hsu2]

lemma mem_saveAll {state updates : List Standing}
    (hs : (state.map Standing.name).Nodup) (s : Standing) :
    s ∈ saveAll state updates ↔
      s ∈ updates ∨ (s ∈ state ∧ s.name ∉ updates.map Standing.name) := by
  simp only [saveAll]
  simp only [List.mem_append]
  rw [foldl_erase_eq_filter _ _ hs]
  constructor
  · rintro ((h | h) | h)
    · rcases List.mem_filter.mp h with ⟨h1, h2⟩
      refine Or.inr ⟨h1, fun hc => ?_⟩
      rcases List.mem_map.mp hc with ⟨u, hu, hun⟩
      have : (updates.filter
          (fun v => state.any (fun t => t.name = v.name))).any
            (fun v => v.name = s.name) = true := by
        rw [List.any_eq_true]
        refine ⟨u, List.mem_filter.mpr ⟨hu, ?_⟩, by simpa using hun⟩
        rw [List.any_eq_true]
        exact ⟨s, h1, by simpa using hun.symm⟩
      rw [this] at h2
      exact absurd h2 (by simp)
    · exact Or.inl (List.mem_filter.mp h).1
    · exact Or.inl (List.mem_filter.mp h).1
  · rintro (h | ⟨h1, h2⟩)
    · by_cases hb : (state.any fun t => t.name = s.name) = true
      · exact Or.inl (Or.inr (List.mem_filter.mpr ⟨h, hb⟩))
      · exact Or.inr (List.mem_filter.mpr ⟨h, by simpa using hb⟩)
    · refine Or.inl (Or.inl (List.mem_filter.mpr ⟨h1, ?_⟩))
      rw [Bool.not_eq_true', ← Bool.not_eq_true, List.any_eq_true]
      rintro ⟨u, hu, hun⟩
      exact h2 ((of_decide_eq_true hun) ▸
        List.mem_map_of_mem Standing.name (List.mem_filter.mp hu).1)

lemma names_saveAll_nodup {state updates : List Standing}
    (hs : (state.map Standing.name).Nodup) (hu : (updates.map Standing.name).Nodup) :
    ((saveAll state updates).map Standing.name).Nodup := by
  simp only [saveAll]
  rw [foldl_erase_eq_filter _ _ hs]
  rw [List.map_append, List.map_append]
  have hinj := List.inj_on_of_nodup_map hu
  refine List.Nodup.append (List.Nodup.append ?_ ?_ ?_) ?_ ?_
  · exact nodup_names_filter _ hs
  · exact nodup_names_filter _ hu
  · -- erased names are disjoint from updated names
    intro n hn1 hn2
    rcases List.mem_map.mp hn1 with ⟨a, ha, han⟩
    rcases List.mem_map.mp hn2 with ⟨u, hu2, hun⟩
    rcases List.mem_filter.mp ha with ⟨ha1, ha2⟩
    have : (updates.filter
        (fun v => state.any (fun t => t.name = v.name))).any
          (fun v => v.name = a.name) = true := by
      rw [List.any_eq_true]
      exact ⟨u, hu2, by simp [hun, han]⟩
    rw [this] at ha2
    exact absurd ha2 (by simp)
  · exact nodup_names_filter _ hu
  · -- erased-and-updated names are disjoint from inserted names
    intro n hn1 hn2
    rcases List.mem_map.mp hn2 with ⟨u, hu2, hun⟩
    rcases List.mem_filter.mp hu2 with ⟨hu3, hu4⟩
    rcases List.mem_append.mp hn1 with h | h
    · -- n is the name of a surviving stored entry, but u's key is absent from the store
      rcases List.mem_map.mp h with ⟨a, ha, han⟩
      have : (state.any fun t => t.name = u.name) = true := by
        rw [List.any_eq_true]
        exact ⟨a, (List.mem_filter.mp ha).1, by simp [han, hun]⟩
      rw [this] at hu4
      exact absurd hu4 (by simp)
    · -- n is an updated name and an inserted name: same entry twice
      rcases List.mem_map.mp h with ⟨v, hv, hvn⟩
      rcases List.mem_filter.mp hv with ⟨hv1, hv2⟩
      have hvu : v = u := hinj hv1 hu3 (by rw [hvn, hun])
      rw [hvu] at hv2
      rw [hv2] at hu4
      exact absurd hu4 (by simp)

lemma pairwise_sortDesc (l : List Standing) : (sortDesc l).Pairwise ratingDescRel :=
  List.sorted_insertionSort ratingDescRel l

lemma perm_sortDesc (l : List Standing) : List.Perm (sortDesc l) l :=
  List.perm_insertionSort ratingDescRel l

lemma length_assignRanks (k : Nat) (l : List Standing) :
    (assignRanks k l).length = l.length := by
  induction l generalizing k with
  | nil => rfl
  | cons x xs ih => simp [assignRanks, ih]

lemma consistency_assignRanks {l : List Standing} (hp : l.Pairwise ratingDescRel) (k : Nat) :
    ∀ a ∈ assignRanks k l, ∀ b ∈ assignRanks k l, b.rating < a.rating → a.rank < b.rank := by
  induction l generalizing k with
  | nil =>
    intro a ha
    rw [assignRanks] at ha
    exact absurd ha (List.not_mem_nil a)
  | cons x xs ih =>
    rw [List.pairwise_cons] at hp
    intro a ha b hb hr
    rw [assignRanks] at ha hb
    rcases List.mem_cons.mp ha with rfl | ha2 <;> rcases List.mem_cons.mp hb with rfl | hb2
    · exact absurd hr (lt_irrefl _)
    · exact lt_of_lt_of_le (Nat.lt_succ_self k) (rank_le_of_mem_assignRanks hb2)
    · exfalso
      rcases List.mem_map.mp (rating_mem_of_mem_assignRanks ha2) with ⟨y, hy, hye⟩
      have hyx : y.rating ≤ x.rating := hp.1 y hy
      rw [hye] at hyx
      exact absurd hr (not_lt.mpr hyx)
    · exact ih hp.2 (k + 1) a ha2 b hb2 hr

set_option maxHeartbeats 4000000 in
/-- The stored state after `save_all(update_batch)` is, up to dict order,
exactly the fully re-ranked roster. -/
lemma perm_saveAll_ranked (state : List Standing) (pw pl : Standing)
    (hs : namesNodup state) (hwl : pw.name ≠ pl.name) :
    List.Perm (saveAll state (calcRankChanges state pw pl))
      (assignRanks 1 (sortDesc (spliceIntoList (spliceIntoList state pw) pl))) := by
  have hs1 : ((spliceIntoList state pw).map Standing.name).Nodup := namesNodup_splice pw hs
  have hall2n : ((spliceIntoList (spliceIntoList state pw) pl).map Standing.name).Nodup :=
    namesNodup_splice pl hs1
  have hsrtn : ((sortDesc (spliceIntoList (spliceIntoList state pw) pl)).map
      Standing.name).Nodup :=
    ((perm_sortDesc _).map Standing.name).nodup_iff.mpr hall2n
  have hu1n : ((collectChanges 1 (sortDesc (spliceIntoList (spliceIntoList state pw) pl))).map
      Standing.name).Nodup :=
    List.Nodup.sublist (names_collectChanges_sublist _ _) hsrtn
  have hun : ((calcRankChanges state pw pl).map Standing.name).Nodup :=
    nodup_names_calcRankChanges hu1n
  have e1 : (saveAll state (calcRankChanges state pw pl)).Nodup :=
    (names_saveAll_nodup hs hun).of_map
  have e2 : (assignRanks 1 (sortDesc (spliceIntoList (spliceIntoList state pw) pl))).Nodup := by
    have := (names_assignRanks 1 (sortDesc (spliceIntoList (spliceIntoList state pw) pl))) ▸ hsrtn
    exact this.of_map
  rw [List.perm_ext_iff_of_nodup e1 e2]
  intro s
  rw [mem_saveAll hs, mem_calcRankChanges hwl, mem_assignRanks_iff 1 _ hsrtn]
  have hsrt : s ∈ sortDesc (spliceIntoList (spliceIntoList state pw) pl) ↔
      s ∈ spliceIntoList (spliceIntoList state pw) pl := (perm_sortDesc _).mem_iff
  rw [hsrt, mem_splice hs1 s, mem_splice hs s]
  have hnames : ∀ n, n ∈ (calcRankChanges state pw pl).map Standing.name ↔
      (n ∈ (collectChanges 1 (sortDesc (spliceIntoList (spliceIntoList state pw) pl))).map
        Standing.name ∨ n = pw.name ∨ n = pl.name) := names_calcRankChanges hwl
  rw [hnames s.name]
  have hppl : s = pw → s = pl → False :=
    fun h1 h2 => hwl (congrArg Standing.name (h1.symm.trans h2))
  have f4 : s = pw → s.name = pw.name := fun h => by rw [h]
  have f5 : s = pl → s.name = pl.name := fun h => by rw [h]
  have f6 : s.name = pw.name → s.name = pl.name → False :=
    fun a b => hwl (a.symm.trans b)
  have f7 : s.name = pw.name →
      ((s.name ∈ (collectChanges 1 (sortDesc (spliceIntoList (spliceIntoList state pw) pl))).map
        Standing.name) ↔
       (pw.name ∈ (collectChanges 1 (sortDesc (spliceIntoList (spliceIntoList state pw) pl))).map
        Standing.name)) := fun h => by rw [h]
  have f8 : s.name = pl.name →
      ((s.name ∈ (collectChanges 1 (sortDesc (spliceIntoList (spliceIntoList state pw) pl))).map
        Standing.name) ↔
       (pl.name ∈ (collectChanges 1 (sortDesc (spliceIntoList (spliceIntoList state pw) pl))).map
        Standing.name)) := fun h => by rw [h]
  set A := s ∈ collectChanges 1 (sortDesc (spliceIntoList (spliceIntoList state pw) pl)) with hA
  set NC := s.name ∈ (collectChanges 1 (sortDesc (spliceIntoList (spliceIntoList state pw) pl))).map
      Standing.name with hNC
  set WC := pw.name ∈ (collectChanges 1 (sortDesc (spliceIntoList (spliceIntoList state pw) pl))).map
      Standing.name with hWC
  set LC := pl.name ∈ (collectChanges 1 (sortDesc (spliceIntoList (spliceIntoList state pw) pl))).map
      Standing.name with hLC
  set S := s ∈ state with hS
  clear_value A NC WC LC S
  clear hA hNC hWC hLC hS hs hs1 hall2n hsrtn hu1n hun e1 e2 hnames hsrt hwl
  tauto


lemma getStanding_name (state : List Standing) (u : PPUser) :
    (getStanding state u).name = u.fullName := by
  unfold getStanding
  cases hf : state.find? (fun s => s.name = u.fullName) with
  | none => rfl
  | some q => simpa using List.find?_some hf

/-- The roster `game_over` ranks: all stored standings with the two partial
results spliced in. -/
def rosterAfter (elo : Rat → Rat → Rat × Rat) (state : List Standing)
    (w l : PPUser) : List Standing :=
  spliceIntoList (spliceIntoList state (partialWinner elo state w l))
    (partialLoser elo state w l)

/-- The fully re-ranked roster after one `game_over` call. -/
def rankedAfter (elo : Rat → Rat → Rat × Rat) (state : List Standing)
    (w l : PPUser) : List Standing :=
  assignRanks 1 (sortDesc (rosterAfter elo state w l))

lemma partialWinner_name (elo : Rat → Rat → Rat × Rat) (state : List Standing)
    (w l : PPUser) : (partialWinner elo state w l).name = w.fullName := by
  rw [partialWinner]
  exact getStanding_name state w

lemma partialLoser_name (elo : Rat → Rat → Rat × Rat) (state : List Standing)
    (w l : PPUser) : (partialLoser elo state w l).name = l.fullName := by
  rw [partialLoser]
  exact getStanding_name state l

lemma gameOver_perm (elo : Rat → Rat → Rat × Rat) (state : List Standing)
    (w l : PPUser) (hs : namesNodup state) (hwl : w.fullName ≠ l.fullName) :
    List.Perm (gameOver elo state w l) (rankedAfter elo state w l) := by
  have hne : (partialWinner elo state w l).name ≠ (partialLoser elo state w l).name := by
    rw [partialWinner_name, partialLoser_name]
    exact hwl
  exact perm_saveAll_ranked state (partialWinner elo state w l) (partialLoser elo state w l)
    hs hne

lemma rosterAfter_names_nodup (elo : Rat → Rat → Rat × Rat) (state : List Standing)
    (w l : PPUser) (hs : namesNodup state) :
    ((rosterAfter elo state w l).map Standing.name).Nodup :=
  namesNodup_splice _ (namesNodup_splice _ hs)

lemma gameOver_namesNodup (elo : Rat → Rat → Rat × Rat) (state : List Standing)
    (w l : PPUser) (hs : namesNodup state) :
    namesNodup (gameOver elo state w l) := by
  have hsrtn : ((sortDesc (rosterAfter elo state w l)).map Standing.name).Nodup :=
    ((perm_sortDesc _).map Standing.name).nodup_iff.mpr (rosterAfter_names_nodup elo state w l hs)
  have hu1n := List.Nodup.sublist (names_collectChanges_sublist 1 _) hsrtn
  exact names_saveAll_nodup hs (nodup_names_calcRankChanges hu1n)

lemma gameOver_ranksPerfect (elo : Rat → Rat → Rat × Rat) (state : List Standing)
    (w l : PPUser) (hs : namesNodup state) (hwl : w.fullName ≠ l.fullName) :
    ranksPerfect (gameOver elo state w l) := by
  have hperm := gameOver_perm elo state w l hs hwl
  constructor
  · have h1 : List.Perm ((gameOver elo state w l).map Standing.rank)
        ((rankedAfter elo state w l).map Standing.rank) := hperm.map _
    have h2 : (rankedAfter elo state w l).map Standing.rank =
        List.range' 1 (sortDesc (rosterAfter elo state w l)).length :=
      ranks_assignRanks 1 _
    have h3 : (gameOver elo state w l).length = (sortDesc (rosterAfter elo state w l)).length := by
      rw [hperm.length_eq, rankedAfter, length_assignRanks]
    rw [h3]
    rw [h2] at h1
    exact h1
  · intro a ha b hb hr
    rw [hperm.mem_iff] at ha hb
    exact consistency_assignRanks (pairwise_sortDesc _) 1 a ha b hb hr

/-- **C2** (confirmed).  Starting from a stored state with distinct player
names and correct ranks, after every `game_over` (recordResult) call of any
sequence of matches (each between two distinct players) settles, the ranks
across all standings are exactly {1..N} with no duplicates (a permutation
of `range' 1 N`), and a standing with strictly higher rating always has a
strictly smaller (better) numeric rank. -/
theorem record_result_ranks_invariant (elo : Rat → Rat → Rat × Rat)
    (state : List Standing) (games : List (PPUser × PPUser))
    (hs : namesNodup state) (hr0 : ranksPerfect state) (hne : games ≠ [])
    (hd : ∀ g ∈ games, g.1.fullName ≠ g.2.fullName) :
    ranksPerfect (runGames elo state games) ∧ namesNodup (runGames elo state games) := by
  clear hr0
  induction games generalizing state with
  | nil => exact absurd rfl hne
  | cons g gs ih =>
    have hd1 : g.1.fullName ≠ g.2.fullName := hd g (List.mem_cons_self _ _)
    have h1 : namesNodup (gameOver elo state g.1 g.2) :=
      gameOver_namesNodup elo state g.1 g.2 hs
    have h2 : ranksPerfect (gameOver elo state g.1 g.2) :=
      gameOver_ranksPerfect elo state g.1 g.2 hs hd1
    have hrw : runGames elo state (g :: gs) = runGames elo (gameOver elo state g.1 g.2) gs :=
      rfl
    rw [hrw]
    cases gs with
    | nil => exact ⟨h2, h1⟩
    | cons g2 gs2 =>
      exact ih (gameOver elo state g.1 g.2) h1 (by simp)
        (fun x hx => hd x (List.mem_cons_of_mem _ hx))

/-- Witness for C2: one match between players A and B starting from the
empty standings store. -/
theorem record_result_ranks_invariant_witness :
    namesNodup ([] : List Standing) ∧ ranksPerfect ([] : List Standing) ∧
      ranksPerfect (runGames (fun a b => (a, b)) []
        [((⟨"A", "a"⟩ : PPUser), (⟨"B", "b"⟩ : PPUser))]) := by
  have h0 : namesNodup ([] : List Standing) := List.nodup_nil
  have hp0 : ranksPerfect ([] : List Standing) :=
    ⟨List.Perm.refl _, fun a ha => absurd ha (List.not_mem_nil a)⟩
  refine ⟨h0, hp0, ?_⟩
  exact (record_result_ranks_invariant (fun a b => (a, b)) []
    [((⟨"A", "a"⟩ : PPUser), (⟨"B", "b"⟩ : PPUser))] h0 hp0 (by simp)
    (by intro g hg; rw [List.mem_singleton] at hg; subst hg; decide)).1

/-- **C4** (confirmed).  The update batch persisted by one `game_over` call
contains, by player name, exactly: every standing of the spliced roster
whose stored rank differs from its recomputed rank (players who did not
play included), plus the winner and the loser, who are present even when
their rank did not change. -/
theorem game_over_batch_names (elo : Rat → Rat → Rat × Rat) (state : List Standing)
    (w l : PPUser) (hs : namesNodup state) (hwl : w.fullName ≠ l.fullName) (n : String) :
    n ∈ (gameOverUpdates elo state w l).map Standing.name ↔
      ((∃ s ∈ rosterAfter elo state w l, s.name = n ∧
          ∃ r ∈ rankedAfter elo state w l, r.name = n ∧ r.rank ≠ s.rank) ∨
        n = w.fullName ∨ n = l.fullName) := by
  have hne : (partialWinner elo state w l).name ≠ (partialLoser elo state w l).name := by
    rw [partialWinner_name, partialLoser_name]
    exact hwl
  have hall2n : ((rosterAfter elo state w l).map Standing.name).Nodup :=
    rosterAfter_names_nodup elo state w l hs
  have hsrtn : ((sortDesc (rosterAfter elo state w l)).map Standing.name).Nodup :=
    ((perm_sortDesc _).map Standing.name).nodup_iff.mpr hall2n
  have h1 : n ∈ (gameOverUpdates elo state w l).map Standing.name ↔
      (n ∈ (collectChanges 1 (sortDesc (rosterAfter elo state w l))).map Standing.name ∨
        n = (partialWinner elo state w l).name ∨ n = (partialLoser elo state w l).name) :=
    names_calcRankChanges hne n
  rw [h1, name_mem_collectChanges_iff 1 _ hsrtn n, partialWinner_name, partialLoser_name]
  have hmm : ∀ s, s ∈ sortDesc (rosterAfter elo state w l) ↔ s ∈ rosterAfter elo state w l :=
    fun s => (perm_sortDesc _).mem_iff
  constructor
  · rintro (⟨s, hsm, hsn, r, hrm, hrn, hne2⟩ | h | h)
    · exact Or.inl ⟨s, (hmm s).mp hsm, hsn, r, hrm, hrn, hne2⟩
    · exact Or.inr (Or.inl h)
    · exact Or.inr (Or.inr h)
  · rintro (⟨s, hsm, hsn, r, hrm, hrn, hne2⟩ | h | h)
    · exact Or.inl ⟨s, (hmm s).mpr hsm, hsn, r, hrm, hrn, hne2⟩
    · exact Or.inr (Or.inl h)
    · exact Or.inr (Or.inr h)

/-- Witness for C4, on the spec's example shape: standings A(1500, rank 2),
B(1400, rank 3), C(1600, rank 1); B beats C with a rating function that
lifts B above C.  The batch contains exactly the names of the standings
whose rank shifted plus the two players; instantiated at player A, who did
not play. -/
theorem game_over_batch_names_witness :
    namesNodup [(⟨"A", 1500, 0, 0, 2, ""⟩ : Standing), ⟨"B", 1400, 0, 0, 3, ""⟩,
        ⟨"C", 1600, 0, 0, 1, ""⟩] ∧
      (("A" : String) ∈
        (gameOverUpdates (fun wr lr => (wr + 210, lr - 10))
          [(⟨"A", 1500, 0, 0, 2, ""⟩ : Standing), ⟨"B", 1400, 0, 0, 3, ""⟩,
            ⟨"C", 1600, 0, 0, 1, ""⟩] ⟨"B", "b"⟩ ⟨"C", "c"⟩).map Standing.name ↔
        ((∃ s ∈ rosterAfter (fun wr lr => (wr + 210, lr - 10))
            [(⟨"A", 1500, 0, 0, 2, ""⟩ : Standing), ⟨"B", 1400, 0, 0, 3, ""⟩,
              ⟨"C", 1600, 0, 0, 1, ""⟩] ⟨"B", "b"⟩ ⟨"C", "c"⟩, s.name = "A" ∧
            ∃ r ∈ rankedAfter (fun wr lr => (wr + 210, lr - 10))
              [(⟨"A", 1500, 0, 0, 2, ""⟩ : Standing), ⟨"B", 1400, 0, 0, 3, ""⟩,
                ⟨"C", 1600, 0, 0, 1, ""⟩] ⟨"B", "b"⟩ ⟨"C", "c"⟩, r.name = "A" ∧
              r.rank ≠ s.rank) ∨
          ("A" : String) = "B" ∨ ("A" : String) = "C")) := by
  constructor
  · unfold namesNodup
    decide
  · exact game_over_batch_names (fun wr lr => (wr + 210, lr - 10))
      [(⟨"A", 1500, 0, 0, 2, ""⟩ : Standing), ⟨"B", 1400, 0, 0, 3, ""⟩,
        ⟨"C", 1600, 0, 0, 1, ""⟩] ⟨"B", "b"⟩ ⟨"C", "c"⟩ (by unfold namesNodup; decide)
      (by decide) "A"

/-! ### Index layer: `src/integrations/google/sheets/indexes/*.py`

A Python dict is modelled as an association list in insertion order with
pairwise-distinct keys.  Record sets (`set[ModelType]`) are `Finset`s;
sorted buckets are lists.  An operation that can raise (`KeyError` from
`del d[key]` / `set.remove`, `ValueError` from `list.remove`) returns
`Option`: `none` is the raised exception. -/

section Dict

variable {K : Type} [DecidableEq K] {V : Type}

/-- Python `k in d`. -/
def dictMem (d : List (K × V)) (k : K) : Bool := d.any (fun p => p.1 = k)

/-- Python `d.get(k)` / `d[k]` lookup. -/
def dictGet (d : List (K × V)) (k : K) : Option V :=
  (d.find? (fun p => p.1 = k)).map Prod.snd

/-- Python `d[k] = v`: replace in place, or append a new key. -/
def dictSet : List (K × V) → K → V → List (K × V)
  | [], k, v => [(k, v)]
  | p :: rest, k, v => if p.1 = k then (k, v) :: rest else p :: dictSet rest k v

/-- Python `del d[k]` (the key is assumed present; on an absent key this
removes nothing — callers model the `KeyError` separately). -/
def dictErase : List (K × V) → K → List (K × V)
  | [], _ => []
  | p :: rest, k => if p.1 = k then rest else p :: dictErase rest k

/-- Python `list(d.keys())` (insertion order). -/
def dictKeys (d : List (K × V)) : List K := d.map Prod.fst

lemma dictMem_iff {d : List (K × V)} {k : K} :
    dictMem d k = true ↔ k ∈ dictKeys d := by
  rw [dictMem, List.any_eq_true]
  constructor
  · rintro ⟨p, hp, he⟩
    exact (of_decide_eq_true he) ▸ List.mem_map_of_mem Prod.fst hp
  · intro h
    rcases List.mem_map.mp h with ⟨p, hp, he⟩
    exact ⟨p, hp, decide_eq_true he⟩

lemma dictGet_dictSet_self (d : List (K × V)) (k : K) (v : V) :
    dictGet (dictSet d k v) k = some v := by
  induction d with
  | nil => simp [dictSet, dictGet]
  | cons p rest ih =>
    by_cases hp : p.1 = k
    · simp [dictSet, hp, dictGet]
    · simp only [dictSet, if_neg hp, dictGet, List.find?_cons, decide_eq_true_eq]
      rw [dictGet] at ih
      simpa [hp] using ih

lemma dictGet_dictSet_ne (d : List (K × V)) {k k' : K} (v : V) (h : k' ≠ k) :
    dictGet (dictSet d k v) k' = dictGet d k' := by
  have h2 : ¬ k = k' := fun he => h he.symm
  induction d with
  | nil => simp [dictSet, dictGet, h2]
  | cons p rest ih =>
    by_cases hp : p.1 = k
    · have hp' : ¬ p.1 = k' := fun he => h (he.symm.trans hp)
      simp [dictSet, hp, dictGet, List.find?_cons, h2, hp']
    · simp only [dictSet, if_neg hp, dictGet, List.find?_cons]
      by_cases hp' : p.1 = k'
      · simp [hp']
      · rw [dictGet] at ih
        simpa [hp'] using ih

lemma dictKeys_dictSet_mem {d : List (K × V)} {k : K} (v : V)
    (h : k ∈ dictKeys d) : dictKeys (dictSet d k v) = dictKeys d := by
  induction d with
  | nil => simp [dictKeys] at h
  | cons p rest ih =>
    by_cases hp : p.1 = k
    · simp [dictSet, hp, dictKeys]
    · rcases List.mem_cons.mp h with he | hmem
      · exact absurd he.symm hp
      · simp [dictSet, hp, dictKeys]
        simpa [dictKeys] using ih hmem

lemma dictKeys_dictSet_not_mem {d : List (K × V)} {k : K} (v : V)
    (h : k ∉ dictKeys d) : dictKeys (dictSet d k v) = dictKeys d ++ [k] := by
  induction d with
  | nil => simp [dictSet, dictKeys]
  | cons p rest ih =>
    have hp : p.1 ≠ k := fun he => h (he ▸ List.mem_cons_self _ _)
    have hmem : k ∉ dictKeys rest := fun hc => h (List.mem_cons_of_mem _ hc)
    simp only [dictSet, if_neg hp, dictKeys, List.map_cons, List.cons_append]
    simpa [dictKeys] using ih hmem

lemma dictKeys_nodup_dictSet {d : List (K × V)} {k : K} (v : V)
    (h : (dictKeys d).Nodup) : (dictKeys (dictSet d k v)).Nodup := by
  by_cases hm : k ∈ dictKeys d
  · rwa [dictKeys_dictSet_mem v hm]
  · rw [dictKeys_dictSet_not_mem v hm]
    refine List.Nodup.append h (List.nodup_singleton _) ?_
    intro a ha hb
    rw [List.mem_singleton] at hb
    exact hm (hb ▸ ha)

lemma dictKeys_dictErase_sublist (d : List (K × V)) (k : K) :
    (dictKeys (dictErase d k)).Sublist (dictKeys d) := by
  induction d with
  | nil => simp [dictErase]
  | cons p rest ih =>
    by_cases hp : p.1 = k
    · simp only [dictErase, if_pos hp, dictKeys, List.map_cons]
      exact List.sublist_cons_self _ _
    · simp only [dictErase, if_neg hp, dictKeys, List.map_cons]
      exact List.Sublist.cons₂ _ ih

lemma dictKeys_nodup_dictErase {d : List (K × V)} (k : K)
    (h : (dictKeys d).Nodup) : (dictKeys (dictErase d k)).Nodup :=
  List.Nodup.sublist (dictKeys_dictErase_sublist d k) h

lemma dictGet_none_of_not_mem {d : List (K × V)} {k : K}
    (h : dictMem d k = false) : dictGet d k = none := by
  rw [dictGet, Option.map_eq_none', List.find?_eq_none]
  intro p hp
  rw [dictMem, List.any_eq_false] at h
  simpa using h p hp

end Dict

/-! #### Unique, bucket and sorted-bucket indexes (claims C6, C10) -/

section SimpleIndexes

variable {K : Type} [DecidableEq K] {M : Type} [DecidableEq M]

/-- `UniqueIndex._insert_inner` (unique_index.py lines 19-25): walk the key
functions in order; a `None` key returns at once (skipping the remaining
key functions); otherwise `self._data[key] = model`. -/
def uniqueInsert (preds : List (M → Option K)) (d : List (K × M)) (m : M) :
    List (K × M) :=
  match preds with
  | [] => d
  | f :: fs =>
    match f m with
    | none => d
    | some k => uniqueInsert fs (dictSet d k m) m

/-- `UniqueIndex._delete_inner` (lines 27-33): a `None` key returns at
once; otherwise `del self._data[key]`, which raises `KeyError` (`none`)
when the key is absent. -/
def uniqueDelete (preds : List (M → Option K)) (d : List (K × M)) (m : M) :
    Option (List (K × M)) :=
  match preds with
  | [] => some d
  | f :: fs =>
    match f m with
    | none => some d
    | some k =>
      if dictMem d k then uniqueDelete fs (dictErase d k) m
      else none

/-- `Index._get_inner`: plain dict lookup; an absent key is `None`. -/
def uniqueGet (d : List (K × M)) (k : K) : Option M := dictGet d k

/-- `Index.update` (contracts/index.py lines 51-54): delete the old record,
then insert the new one; a `KeyError` from the delete propagates. -/
def uniqueUpdate (preds : List (M → Option K)) (d : List (K × M))
    (old new : M) : Option (List (K × M)) :=
  (uniqueDelete preds d old).map (fun d2 => uniqueInsert preds d2 new)

/-- One key of `BucketIndex._insert_inner`: create the bucket when the key
is fresh, then `self._data[key].add(model)`. -/
def bucketInsertKey (d : List (K × Finset M)) (k : K) (m : M) : List (K × Finset M) :=
  let d2 := if dictMem d k then d else dictSet d k ∅
  dictSet d2 k (insert m ((dictGet d2 k).getD ∅))

/-- `BucketIndex._insert_inner` (bucket_index.py lines 19-28): walk the key
functions in order; a `None` key returns at once. -/
def bucketInsert (preds : List (M → Option K)) (d : List (K × Finset M)) (m : M) :
    List (K × Finset M) :=
  match preds with
  | [] => d
  | f :: fs =>
    match f m with
    | none => d
    | some k => bucketInsert fs (bucketInsertKey d k m) m

/-- `BucketIndex._delete_inner` (lines 30-41): a `None` key or an absent
key returns at once; `set.remove` raises `KeyError` (`none`) when the
record is missing from the bucket; an emptied bucket is deleted. -/
def bucketDelete (preds : List (M → Option K)) (d : List (K × Finset M)) (m : M) :
    Option (List (K × Finset M)) :=
  match preds with
  | [] => some d
  | f :: fs =>
    match f m with
    | none => some d
    | some k =>
      if dictMem d k then
        match dictGet d k with
        | none => none
        | some s =>
          if m ∈ s then
            bucketDelete fs
              (if s.erase m = ∅ then dictErase d k else dictSet d k (s.erase m)) m
          else none
      else some d

variable {S : Type} [LinearOrder S]

/-- `bisect.insort_left` with a sort key: insert before the first element
whose key is not smaller. -/
def insortLeft (sorter : M → S) (m : M) : List M → List M
  | [] => [m]
  | x :: xs =>
    if sorter x < sorter m then x :: insortLeft sorter m xs
    else m :: x :: xs

/-- `SortedBucketIndex._insert_inner` (sorted_bucket_index.py lines 28-40):
a `None` key returns at once; a fresh key gets an empty bucket; a record
already in the bucket returns at once; otherwise `insort_left`. -/
def sortedInsert (preds : List (M → Option K)) (sorter : M → S)
    (d : List (K × List M)) (m : M) : List (K × List M) :=
  match preds with
  | [] => d
  | f :: fs =>
    match f m with
    | none => d
    | some k =>
      let d2 := if dictMem d k then d else dictSet d k []
      let b := (dictGet d2 k).getD []
      if m ∈ b then d2
      else sortedInsert fs sorter (dictSet d2 k (insortLeft sorter m b)) m

/-- `SortedBucketIndex._delete_inner` (lines 42-53): a `None` key or an
absent key returns at once; `list.remove` raises `ValueError` (`none`)
when the record is missing; an emptied bucket is deleted. -/
def sortedDelete (preds : List (M → Option K)) (d : List (K × List M)) (m : M) :
    Option (List (K × List M)) :=
  match preds with
  | [] => some d
  | f :: fs =>
    match f m with
    | none => some d
    | some k =>
      if dictMem d k then
        match dictGet d k with
        | none => none
        | some b =>
          if m ∈ b then
            sortedDelete fs
              (if b.erase m = [] then dictErase d k else dictSet d k (b.erase m)) m
          else none
      else some d

/-- The keys the key-extraction functions actually contribute on an
insert: those produced before the first `None` result. -/
def producedKeys (preds : List (M → Option K)) (m : M) : List K :=
  ((preds.map (fun f => f m)).takeWhile Option.isSome).filterMap id

/-- **C10** (amended).  A `None` key-function result excludes the record
from that function's entries *and aborts the remaining key functions* (the
code `return`s, it does not `continue`): in every variant, inserting with
key functions `ps1 ++ [f] ++ ps2` where `f` yields `None` equals inserting
with `ps1` alone, and for the unique and bucket variants the insert writes
exactly the keys produced before the first `None`.  The record is *not*
indexed under keys that later key functions would produce. -/
theorem index_insert_none_key :
    (∀ (K M : Type) [DecidableEq K] [DecidableEq M]
      (ps1 ps2 : List (M → Option K)) (f : M → Option K) (d : List (K × M)) (m : M),
      f m = none → uniqueInsert (ps1 ++ f :: ps2) d m = uniqueInsert ps1 d m) ∧
    (∀ (K M : Type) [DecidableEq K] [DecidableEq M]
      (ps1 ps2 : List (M → Option K)) (f : M → Option K) (d : List (K × Finset M)) (m : M),
      f m = none → bucketInsert (ps1 ++ f :: ps2) d m = bucketInsert ps1 d m) ∧
    (∀ (K M S : Type) [DecidableEq K] [DecidableEq M] [LinearOrder S]
      (ps1 ps2 : List (M → Option K)) (f : M → Option K) (sorter : M → S)
      (d : List (K × List M)) (m : M),
      f m = none → sortedInsert (ps1 ++ f :: ps2) sorter d m = sortedInsert ps1 sorter d m) ∧
    (∀ (K M : Type) [DecidableEq K] [DecidableEq M]
      (preds : List (M → Option K)) (d : List (K × M)) (m : M),
      uniqueInsert preds d m = (producedKeys preds m).foldl (fun d2 k => dictSet d2 k m) d) ∧
    (∀ (K M : Type) [DecidableEq K] [DecidableEq M]
      (preds : List (M → Option K)) (d : List (K × Finset M)) (m : M),
      bucketInsert preds d m =
        (producedKeys preds m).foldl (fun d2 k => bucketInsertKey d2 k m) d) := by
  refine ⟨?_, ?_, ?_, ?_, ?_⟩
  · intro K M _ _ ps1 ps2 f d m hf
    induction ps1 generalizing d with
    | nil => simp [uniqueInsert, hf]
    | cons g gs ih =>
      rw [List.cons_append, uniqueInsert, uniqueInsert]
      cases g m with
      | none => rfl
      | some k => exact ih _
  · intro K M _ _ ps1 ps2 f d m hf
    induction ps1 generalizing d with
    | nil => simp [bucketInsert, hf]
    | cons g gs ih =>
      rw [List.cons_append, bucketInsert, bucketInsert]
      cases g m with
      | none => rfl
      | some k => exact ih _
  · intro K M S _ _ _ ps1 ps2 f sorter d m hf
    induction ps1 generalizing d with
    | nil => simp [sortedInsert, hf]
    | cons g gs ih =>
      rw [List.cons_append, sortedInsert, sortedInsert]
      cases g m with
      | none => rfl
      | some k =>
        simp only []
        split
        all_goals try split
        all_goals first
          | rfl
          | exact ih _
  · intro K M _ _ preds d m
    induction preds generalizing d with
    | nil => rfl
    | cons f fs ih =>
      rw [uniqueInsert]
      cases hf : f m with
      | none => simp [producedKeys, hf]
      | some k =>
        show uniqueInsert fs (dictSet d k m) m = _
        rw [ih]
        simp [producedKeys, hf]
  · intro K M _ _ preds d m
    induction preds generalizing d with
    | nil => rfl
    | cons f fs ih =>
      rw [bucketInsert]
      cases hf : f m with
      | none => simp [producedKeys, hf]
      | some k =>
        show bucketInsert fs (bucketInsertKey d k m) m = _
        rw [ih]
        simp [producedKeys, hf]

/-- **C10** counterexample to the claim as stated: with two key functions,
the first returning `None` and the second producing key 5, inserting
record 7 into an empty unique or bucket index creates *no* entry at all —
the record is not indexed under key 5 even though its other key function
produces that key. -/
theorem index_insert_none_key_counterexample :
    uniqueInsert [fun _ => (none : Option Nat), fun _ => some 5]
        ([] : List (Nat × Nat)) 7 = [] ∧
      bucketInsert [fun _ => (none : Option Nat), fun _ => some 5]
        ([] : List (Nat × Finset Nat)) 7 = [] ∧
      uniqueGet (uniqueInsert [fun _ => (none : Option Nat), fun _ => some 5]
        ([] : List (Nat × Nat)) 7) 5 = none :=
  ⟨rfl, rfl, rfl⟩

/-- Witness for C10: with a first key function producing `n + 1` and a
second producing `None`, inserting record 7 is the same as inserting with
the first key function alone, i.e. it writes exactly key 8. -/
theorem index_insert_none_key_witness :
    ((fun _ : Nat => (none : Option Nat)) 7 = none) ∧
    uniqueInsert [fun n : Nat => some (n + 1), fun _ => (none : Option Nat)]
        ([] : List (Nat × Nat)) 7 =
      uniqueInsert [fun n : Nat => some (n + 1)] ([] : List (Nat × Nat)) 7 ∧
    uniqueInsert [fun n : Nat => some (n + 1)] ([] : List (Nat × Nat)) 7 = [(8, 7)] :=
  ⟨rfl,
   index_insert_none_key.1 Nat Nat [fun n => some (n + 1)] []
     (fun _ => none) [] 7 rfl,
   rfl⟩

end SimpleIndexes

/-! #### The prefix-search index (claims C5, C9):
`src/integrations/google/sheets/indexes/prefix_search_index.py`

Keys are Python strings, modelled as `List α` over a linear order
(`List Char` for the concrete instances) with Python's lexicographic
string comparison and `str.startswith`/`in` tests. -/

section SearchIndex

variable {α : Type} [LinearOrder α] {M : Type} [DecidableEq M]

/-- Python `key.startswith(p)`: `p` is a leading run of the key. -/
def startsKey : List α → List α → Bool
  | [], _ => true
  | _ :: _, [] => false
  | a :: as, b :: bs => if a = b then startsKey as bs else false

/-- Python string `<=` (lexicographic). -/
def keyLeB : List α → List α → Bool
  | [], _ => true
  | _ :: _, [] => false
  | a :: as, b :: bs => if a < b then true else if b < a then false else keyLeB as bs

/-- Propositional form of the lexicographic order on keys. -/
def keyLe (a b : List α) : Prop := keyLeB a b = true

instance : DecidableRel (keyLe (α := α)) := fun _ _ => inferInstanceAs (Decidable (_ = true))

lemma keyLeB_trans : ∀ a b c : List α, keyLeB a b = true → keyLeB b c = true →
    keyLeB a c = true
  | [], _, _, _, _ => rfl
  | _ :: _, [], _, h, _ => by simp [keyLeB] at h
  | _ :: _, _ :: _, [], _, h => by simp [keyLeB] at h
  | a :: as, b :: bs, c :: cs, h1, h2 => by
    rw [keyLeB] at h1 h2 ⊢
    by_cases hab : a < b
    · by_cases hbc : b < c
      · rw [if_pos (lt_trans hab hbc)]
      · rw [if_neg hbc] at h2
        by_cases hcb : c < b
        · rw [if_pos hcb] at h2
          exact absurd h2 (by simp)
        · have hbce : b = c := le_antisymm (not_lt.mp hcb) (not_lt.mp hbc)
          rw [if_pos (hbce ▸ hab)]
    · rw [if_neg hab] at h1
      by_cases hba : b < a
      · rw [if_pos hba] at h1
        exact absurd h1 (by simp)
      · have habe : a = b := le_antisymm (not_lt.mp hba) (not_lt.mp hab)
        subst habe
        rw [if_neg hab] at h1
        by_cases hac : a < c
        · rw [if_pos hac]
        · rw [if_neg hac] at h2 ⊢
          by_cases hca : c < a
          · rw [if_pos hca] at h2
            exact absurd h2 (by simp)
          · rw [if_neg hca] at h2 ⊢
            exact keyLeB_trans as bs cs h1 h2

lemma keyLeB_total : ∀ a b : List α, keyLeB a b = true ∨ keyLeB b a = true
  | [], _ => Or.inl rfl
  | _ :: _, [] => Or.inr rfl
  | a :: as, b :: bs => by
    rw [keyLeB, keyLeB]
    by_cases hab : a < b
    · exact Or.inl (by rw [if_pos hab])
    · by_cases hba : b < a
      · exact Or.inr (by rw [if_pos hba])
      · rw [if_neg hab, if_neg hba, if_neg hba, if_neg hab]
        exact keyLeB_total as bs

instance : IsTotal (List α) keyLe := ⟨fun a b => keyLeB_total a b⟩

instance : IsTrans (List α) keyLe := ⟨fun a b c => keyLeB_trans a b c⟩

lemma startsKey_refl : ∀ k : List α, startsKey k k = true
  | [] => rfl
  | a :: as => by rw [startsKey, if_pos rfl]; exact startsKey_refl as

/-- Prefix squeeze: a common prefix of two lexicographically ordered keys
is a prefix of everything between them. -/
lemma startsKey_of_between : ∀ p s t : List α, startsKey p t = true →
    keyLeB p s = true → keyLeB s t = true → startsKey p s = true
  | [], _, _, _, _, _ => rfl
  | a :: as, s, t, h1, h2, h3 => by
    cases t with
    | nil => simp [startsKey] at h1
    | cons b ts =>
      rw [startsKey] at h1
      by_cases hab : a = b
      · rw [if_pos hab] at h1
        subst hab
        cases s with
        | nil => simp [keyLeB] at h2
        | cons c ss =>
          rw [keyLeB] at h2 h3
          by_cases hac : a < c
          · rw [if_neg (lt_asymm hac), if_pos hac] at h3
            exact absurd h3 (by simp)
          · rw [if_neg hac] at h2
            by_cases hca : c < a
            · rw [if_pos hca] at h2
              exact absurd h2 (by simp)
            · have hace : a = c := le_antisymm (not_lt.mp hca) (not_lt.mp hac)
              subst hace
              rw [if_neg hca] at h2 h3
              rw [if_neg hac] at h3
              rw [startsKey, if_pos rfl]
              exact startsKey_of_between as ss ts h1 h2 h3
      · rw [if_neg hab] at h1
        exact absurd h1 (by simp)

/-- Python `sorted` on the dict's keys. -/
def sortKeys (l : List (List α)) : List (List α) := List.insertionSort keyLe l

/-- The state of `PrefixSearchIndex`: the per-key record sets `_unique`
and the merged, queried mapping `_data`. -/
structure SearchState (α M : Type) where
  unique : List (List α × Finset M)
  data : List (List α × Finset M)
deriving DecidableEq

/-- The while-loop of `_merge_search_prefixes` (lines 71-82): two cursors
`prefix_i < current_i` over the sorted key list; on a startswith hit the
current key's record set is unioned into the prefix cursor's entry and the
current cursor advances; otherwise both cursors restart one key further. -/
def mergeLoop (ks : List (List α)) (d : List (List α × Finset M)) (p c : Nat) :
    List (List α × Finset M) :=
  if h : c < ks.length then
    if startsKey (ks.getD p []) (ks.getD c []) then
      mergeLoop ks
        (dictSet d (ks.getD p [])
          (((dictGet d (ks.getD p [])).getD ∅) ∪ ((dictGet d (ks.getD c [])).getD ∅)))
        p (c + 1)
    else mergeLoop ks d (p + 1) (p + 2)
  else d
termination_by (ks.length - p, ks.length - c)
decreasing_by
  · simp_wf
    exact Prod.Lex.right _ (by omega)
  · simp_wf
    rcases Nat.lt_or_ge p ks.length with hp | hp
    · exact Prod.Lex.left _ _ (by omega)
    · have he : ks.length - p = ks.length - (p + 1) := by omega
      rw [← he]
      exact Prod.Lex.right _ (by omega)

/-- `_merge_search_prefixes`: copy `_unique` into `_data`, then run the
merge loop over the sorted key list from cursors (0, 1). -/
def mergeSearchKeys (u : List (List α × Finset M)) : List (List α × Finset M) :=
  mergeLoop (sortKeys (dictKeys u)) u 0 1

/-- One key of `_insert_all_inner` (lines 44-48): the emptiness check is
made against the *stale* `_data` (the bug-prone `if key not in self._data`),
the write goes to `_unique`; `self._unique[key].add(model)` raises
`KeyError` (`none`) if the key is missing from `_unique`. -/
def searchInsKey (staleData u : List (List α × Finset M)) (k : List α) (m : M) :
    Option (List (List α × Finset M)) :=
  let u1 := if dictMem staleData k then u else dictSet u k ∅
  match dictGet u1 k with
  | none => none
  | some s => some (dictSet u1 k (insert m s))

/-- `PrefixSearchIndex._insert_all_inner` (lines 43-50), ending with the
merge.  The merge's `self._data = self._unique.copy()` (line 67) is a
*shallow* copy and `self._data[prefix] |= self._data[key]` (line 78)
mutates the shared `set` objects in place, so when the merge finishes
`_unique` holds the very same merged sets as `_data`: the post-state
carries the merged map in both components. -/
def searchInsertAll (keysOf : M → List (List α)) (st : SearchState α M)
    (models : List M) : Option (SearchState α M) :=
  (models.foldlM
      (fun u mo => ((keysOf mo).filter (fun k => !k.isEmpty)).foldlM
        (fun u2 k => searchInsKey st.data u2 k mo) u)
      st.unique).map
    (fun u => ⟨mergeSearchKeys u, mergeSearchKeys u⟩)

/-- One key of `_delete_all_inner` (lines 56-62): a key absent from the
stale `_data` is skipped (`continue`); `self._unique[key].remove(model)`
raises `KeyError` (`none`) when the record is missing; an emptied key is
deleted. -/
def searchDelKey (staleData u : List (List α × Finset M)) (k : List α) (m : M) :
    Option (List (List α × Finset M)) :=
  if dictMem staleData k then
    match dictGet u k with
    | none => none
    | some s =>
      if m ∈ s then
        some (if s.erase m = ∅ then dictErase u k else dictSet u k (s.erase m))
      else none
  else some u

/-- `PrefixSearchIndex._delete_all_inner` (lines 55-64), ending with the
merge: as on insert, the shallow copy plus in-place `|=` leave `_unique`
equal to the merged `_data`, so the deletes of a later operation run on
the *absorbed* sets, not on pristine per-key ones. -/
def searchDeleteAll (keysOf : M → List (List α)) (st : SearchState α M)
    (models : List M) : Option (SearchState α M) :=
  (models.foldlM
      (fun u mo => ((keysOf mo).filter (fun k => !k.isEmpty)).foldlM
        (fun u2 k => searchDelKey st.data u2 k mo) u)
      st.unique).map
    (fun u => ⟨mergeSearchKeys u, mergeSearchKeys u⟩)

/-- `Index.reset` for this variant: `_initialize` clears both mappings,
then `_insert_all_inner(initial)`. -/
def searchReset (keysOf : M → List (List α)) (models : List M) :
    Option (SearchState α M) :=
  searchInsertAll keysOf ⟨[], []⟩ models

/-- `_get_inner` (lines 24-38): exact match on `_data` first; an empty
result falls back to the substring scan (`query in key`). -/
def searchGet (st : SearchState α M) (q : List α) : Finset M :=
  let e := (dictGet st.data q).getD ∅
  if e ≠ ∅ then e
  else (st.data.filter (fun pr => decide (q <:+: pr.1))).foldl (fun acc pr => acc ∪ pr.2) ∅

/-- The states of the index reachable through the public bulk operations
(`update` is `delete_all` of the old record followed by `insert_all` of
the new one, hence a composition of two steps). -/
inductive SearchReachable (keysOf : M → List (List α)) : SearchState α M → Prop where
  | init : SearchReachable keysOf ⟨[], []⟩
  | insertAll {st st' : SearchState α M} (ms : List M) :
      SearchReachable keysOf st → searchInsertAll keysOf st ms = some st' →
      SearchReachable keysOf st'
  | deleteAll {st st' : SearchState α M} (ms : List M) :
      SearchReachable keysOf st → searchDeleteAll keysOf st ms = some st' →
      SearchReachable keysOf st'
  | reset {st' : SearchState α M} (ms : List M) :
      searchReset keysOf ms = some st' → SearchReachable keysOf st'

lemma keyLeB_refl : ∀ k : List α, keyLeB k k = true
  | [] => rfl
  | a :: as => by
    rw [keyLeB, if_neg (lt_irrefl a), if_neg (lt_irrefl a)]
    exact keyLeB_refl as

lemma startsKey_trans : ∀ a b c : List α, startsKey a b = true → startsKey b c = true →
    startsKey a c = true
  | [], _, _, _, _ => rfl
  | _ :: _, [], _, h, _ => by simp [startsKey] at h
  | _ :: _, _ :: _, [], _, h2 => by simp [startsKey] at h2
  | a :: as, b :: bs, c :: cs, h, h2 => by
    simp only [startsKey] at h h2 ⊢
    by_cases hab : a = b
    · by_cases hbc : b = c
      · rw [if_pos (hab.trans hbc)]
        rw [if_pos hab] at h
        rw [if_pos hbc] at h2
        exact startsKey_trans as bs cs h h2
      · rw [if_neg hbc] at h2
        exact absurd h2 (by simp)
    · rw [if_neg hab] at h
      exact absurd h (by simp)

lemma startsKey_le : ∀ a b : List α, startsKey a b = true → keyLeB a b = true
  | [], _, _ => rfl
  | _ :: _, [], h => by simp [startsKey] at h
  | a :: as, b :: bs, h => by
    simp only [startsKey] at h
    by_cases hab : a = b
    · rw [if_pos hab] at h
      subst hab
      rw [keyLeB, if_neg (lt_irrefl a), if_neg (lt_irrefl a)]
      exact startsKey_le as bs h
    · rw [if_neg hab] at h
      exact absurd h (by simp)

lemma keyLeB_antisymm : ∀ a b : List α, keyLeB a b = true → keyLeB b a = true → a = b
  | [], [], _, _ => rfl
  | [], _ :: _, _, h2 => by simp [keyLeB] at h2
  | _ :: _, [], h, _ => by simp [keyLeB] at h
  | a :: as, b :: bs, h, h2 => by
    simp only [keyLeB] at h h2
    by_cases hab : a < b
    · rw [if_neg (lt_asymm hab), if_pos hab] at h2
      exact absurd h2 (by simp)
    · by_cases hba : b < a
      · rw [if_neg hab, if_pos hba] at h
        exact absurd h (by simp)
      · have he : a = b := le_antisymm (not_lt.mp hba) (not_lt.mp hab)
        rw [if_neg hab, if_neg hba] at h
        rw [if_neg hba, if_neg hab] at h2
        rw [he, keyLeB_antisymm as bs h h2]

lemma startsKey_comparable : ∀ a b c : List α, startsKey a c = true → startsKey b c = true →
    startsKey a b = true ∨ startsKey b a = true
  | [], _, _, _, _ => Or.inl rfl
  | _ :: _, [], _, _, _ => Or.inr rfl
  | _ :: _, _ :: _, [], h, _ => by simp [startsKey] at h
  | a :: as, b :: bs, c :: cs, h, h2 => by
    simp only [startsKey] at h h2
    by_cases hac : a = c
    · by_cases hbc : b = c
      · have hab : a = b := hac.trans hbc.symm
        rw [if_pos hac] at h
        rw [if_pos hbc] at h2
        rcases startsKey_comparable as bs cs h h2 with h3 | h3
        · exact Or.inl (by rw [startsKey, if_pos hab]; exact h3)
        · exact Or.inr (by rw [startsKey, if_pos hab.symm]; exact h3)
      · rw [if_neg hbc] at h2
        exact absurd h2 (by simp)
    · rw [if_neg hac] at h
      exact absurd h (by simp)

lemma getD_ne_of_nodup {ks : List (List α)} (hnd : ks.Nodup) {i j : Nat}
    (hi : i < ks.length) (hj : j < ks.length) (hij : i ≠ j) :
    ks.getD i [] ≠ ks.getD j [] := by
  rw [List.getD_eq_getElem _ _ hi, List.getD_eq_getElem _ _ hj]
  intro he
  exact hij (hnd.getElem_inj_iff.mp he)

lemma keyLeB_getD_of_sorted {ks : List (List α)} (hs : ks.Pairwise keyLe) {i j : Nat}
    (hij : i ≤ j) (hj : j < ks.length) :
    keyLeB (ks.getD i []) (ks.getD j []) = true := by
  rcases Nat.eq_or_lt_of_le hij with rfl | hlt
  · exact keyLeB_refl _
  · have h := List.pairwise_iff_getElem.mp hs i j (lt_trans hlt hj) hj hlt
    rw [List.getD_eq_getElem _ _ (lt_trans hlt hj), List.getD_eq_getElem _ _ hj]
    exact h

lemma mergeLoop_mono (ks : List (List α)) (d : List (List α × Finset M)) (p c : Nat) :
    ∀ k, (dictGet d k).getD ∅ ⊆ (dictGet (mergeLoop ks d p c) k).getD ∅ := by
  refine mergeLoop.induct ks
    (fun d p c => ∀ k, (dictGet d k).getD ∅ ⊆ (dictGet (mergeLoop ks d p c) k).getD ∅)
    ?_ ?_ ?_ d p c
  · intro d p c hc hst ih
    rw [mergeLoop.eq_def, dif_pos hc, if_pos hst]
    intro k
    refine subset_trans ?_ (ih k)
    by_cases hk : k = ks.getD p []
    · subst hk
      rw [dictGet_dictSet_self]
      simp
    · rw [dictGet_dictSet_ne _ _ hk]
  · intro d p c hc hst ih
    rw [mergeLoop.eq_def, dif_pos hc, if_neg hst]
    exact ih
  · intro d p c hc
    rw [mergeLoop.eq_def, dif_neg hc]
    intro k
    exact subset_rfl

lemma mergeLoop_keys (ks : List (List α)) (d : List (List α × Finset M)) (p c : Nat) :
    p < c → (∀ i, i < ks.length → ks.getD i [] ∈ dictKeys d) →
    dictKeys (mergeLoop ks d p c) = dictKeys d := by
  refine mergeLoop.induct ks
    (fun d p c => p < c → (∀ i, i < ks.length → ks.getD i [] ∈ dictKeys d) →
      dictKeys (mergeLoop ks d p c) = dictKeys d)
    ?_ ?_ ?_ d p c
  · intro d p c hc hst ih
    intro hpc hkeys
    rw [mergeLoop.eq_def, dif_pos hc, if_pos hst]
    have hkp : ks.getD p [] ∈ dictKeys d := hkeys p (lt_trans hpc hc)
    have hkeq : dictKeys (dictSet d (ks.getD p [])
        (((dictGet d (ks.getD p [])).getD ∅) ∪ ((dictGet d (ks.getD c [])).getD ∅))) =
        dictKeys d :=
      dictKeys_dictSet_mem _ hkp
    rw [ih (by omega) (fun i hi => hkeq ▸ hkeys i hi), hkeq]
  · intro d p c hc hst ih
    intro hpc hkeys
    rw [mergeLoop.eq_def, dif_pos hc, if_neg hst]
    exact ih (by omega) hkeys
  · intro d p c hc
    intro _ _
    rw [mergeLoop.eq_def, dif_neg hc]

/-- Provenance of the merge loop: every record in an entry of the merged
map was already in that key's own entry, or in the entry of some key the
query key is a prefix of. -/
lemma mergeLoop_provenance (ks : List (List α)) (d : List (List α × Finset M)) (p c : Nat) :
    ∀ (q : List α) (x : M),
      x ∈ (dictGet (mergeLoop ks d p c) q).getD ∅ →
      x ∈ (dictGet d q).getD ∅ ∨
        ∃ j, j < ks.length ∧ startsKey q (ks.getD j []) = true ∧
          x ∈ (dictGet d (ks.getD j [])).getD ∅ := by
  refine mergeLoop.induct ks
    (fun d p c => ∀ (q : List α) (x : M),
      x ∈ (dictGet (mergeLoop ks d p c) q).getD ∅ →
      x ∈ (dictGet d q).getD ∅ ∨
        ∃ j, j < ks.length ∧ startsKey q (ks.getD j []) = true ∧
          x ∈ (dictGet d (ks.getD j [])).getD ∅)
    ?_ ?_ ?_ d p c
  · intro d p c hc hst ih q x hx
    rw [mergeLoop.eq_def, dif_pos hc, if_pos hst] at hx
    have hstep : ∀ r, x ∈ (dictGet (dictSet d (ks.getD p [])
        (((dictGet d (ks.getD p [])).getD ∅) ∪ ((dictGet d (ks.getD c [])).getD ∅))) r).getD ∅ →
        x ∈ (dictGet d r).getD ∅ ∨
          (startsKey r (ks.getD c []) = true ∧ x ∈ (dictGet d (ks.getD c [])).getD ∅) := by
      intro r hr
      by_cases hrp : r = ks.getD p []
      · subst hrp
        rw [dictGet_dictSet_self, Option.getD_some, Finset.mem_union] at hr
        rcases hr with hr | hr
        · exact Or.inl hr
        · exact Or.inr ⟨hst, hr⟩
      · rw [dictGet_dictSet_ne _ _ hrp] at hr
        exact Or.inl hr
    rcases ih q x hx with hq | ⟨j, hj, hjs, hjx⟩
    · rcases hstep q hq with hq2 | ⟨hq2, hq3⟩
      · exact Or.inl hq2
      · exact Or.inr ⟨c, hc, hq2, hq3⟩
    · rcases hstep (ks.getD j []) hjx with hj2 | ⟨hj2, hj3⟩
      · exact Or.inr ⟨j, hj, hjs, hj2⟩
      · exact Or.inr ⟨c, hc, startsKey_trans _ _ _ hjs hj2, hj3⟩
  · intro d p c hc hst ih q x hx
    rw [mergeLoop.eq_def, dif_pos hc, if_neg hst] at hx
    exact ih q x hx
  · intro d p c hc q x hx
    rw [mergeLoop.eq_def, dif_neg hc] at hx
    exact Or.inl hx

/-- The central absorption property of the merge loop: from cursors
`(p, c)` in a partially processed phase, the record set of the key at
index `j` ends up inside the entry of the first key (at index `b ≥ p`)
that is a prefix of it. -/
lemma mergeLoop_absorb (ks : List (List α)) (hnd : ks.Nodup)
    (hsort : ks.Pairwise keyLe) (d : List (List α × Finset M)) (p c : Nat) :
    p < c →
    (∀ i, p < i → i < c → i < ks.length →
      startsKey (ks.getD p []) (ks.getD i []) = true) →
    (∀ i, p < i → i < c → i < ks.length →
      (dictGet d (ks.getD i [])).getD ∅ ⊆ (dictGet d (ks.getD p [])).getD ∅) →
    ∀ b j, p ≤ b → b ≤ j → j < ks.length →
      startsKey (ks.getD b []) (ks.getD j []) = true →
      (∀ i, p ≤ i → i < b → startsKey (ks.getD i []) (ks.getD j []) = false) →
      (dictGet d (ks.getD j [])).getD ∅ ⊆
        (dictGet (mergeLoop ks d p c) (ks.getD b [])).getD ∅ := by
  refine mergeLoop.induct ks
    (fun d p c => p < c →
      (∀ i, p < i → i < c → i < ks.length →
        startsKey (ks.getD p []) (ks.getD i []) = true) →
      (∀ i, p < i → i < c → i < ks.length →
        (dictGet d (ks.getD i [])).getD ∅ ⊆ (dictGet d (ks.getD p [])).getD ∅) →
      ∀ b j, p ≤ b → b ≤ j → j < ks.length →
        startsKey (ks.getD b []) (ks.getD j []) = true →
        (∀ i, p ≤ i → i < b → startsKey (ks.getD i []) (ks.getD j []) = false) →
        (dictGet d (ks.getD j [])).getD ∅ ⊆
          (dictGet (mergeLoop ks d p c) (ks.getD b [])).getD ∅)
    ?_ ?_ ?_ d p c
  · intro d p c hc hst ih
    intro hpc hrun habs b j hpb hbj hj hbjst hmin
    rw [mergeLoop.eq_def, dif_pos hc, if_pos hst]
    have hplen : p < ks.length := lt_trans hpc hc
    -- the bumped dictionary
    have hbump : ∀ k, (dictGet d k).getD ∅ ⊆
        (dictGet (dictSet d (ks.getD p [])
          (((dictGet d (ks.getD p [])).getD ∅) ∪ ((dictGet d (ks.getD c [])).getD ∅))) k).getD
          ∅ := by
      intro k
      by_cases hk : k = ks.getD p []
      · subst hk
        rw [dictGet_dictSet_self]
        simp
      · rw [dictGet_dictSet_ne _ _ hk]
    refine subset_trans (hbump (ks.getD j [])) ?_
    refine ih (by omega) ?_ ?_ b j hpb hbj hj hbjst hmin
    · intro i hpi hic hilen
      rcases Nat.lt_or_ge i c with hic2 | hic2
      · exact hrun i hpi hic2 hilen
      · have hie : i = c := by omega
        subst hie
        exact hst
    · intro i hpi hic hilen
      have hip : ks.getD i [] ≠ ks.getD p [] :=
        getD_ne_of_nodup hnd hilen hplen (by omega)
      rw [dictGet_dictSet_ne _ _ hip, dictGet_dictSet_self]
      simp only [Option.getD_some]
      rcases Nat.lt_or_ge i c with hic2 | hic2
      · exact subset_trans (habs i hpi hic2 hilen) Finset.subset_union_left
      · have hie : i = c := by omega
        subst hie
        exact Finset.subset_union_right
  · intro d p c hc hst ih
    intro hpc hrun habs b j hpb hbj hj hbjst hmin
    rw [mergeLoop.eq_def, dif_pos hc, if_neg hst]
    rcases Nat.eq_or_lt_of_le hpb with rfl | hpb2
    · -- b = p: j must be inside the already-processed part
      have hjc : j < c := by
        rcases Nat.lt_or_ge j c with h | h
        · exact h
        · exfalso
          apply hst
          rcases Nat.eq_or_lt_of_le h with rfl | hcj
          · exact hbjst
          · exact startsKey_of_between _ _ _ hbjst
              (keyLeB_getD_of_sorted hsort (le_of_lt hpc) hc)
              (keyLeB_getD_of_sorted hsort (le_of_lt hcj) hj)
      rcases Nat.eq_or_lt_of_le hbj with rfl | hbj2
      · exact mergeLoop_mono ks d (p + 1) (p + 2) (ks.getD p [])
      · exact subset_trans (habs j hbj2 hjc hj)
          (mergeLoop_mono ks d (p + 1) (p + 2) (ks.getD p []))
    · -- b > p: restart at (p+1, p+2)
      refine ih (by omega) ?_ ?_ b j (by omega) hbj hj hbjst ?_
      · intro i h1 h2 _
        omega
      · intro i h1 h2 _
        omega
      · intro i h1 h2
        exact hmin i (by omega) h2
  · intro d p c hc
    intro hpc hrun habs b j hpb hbj hj hbjst hmin
    rw [mergeLoop.eq_def, dif_neg hc]
    have hjc : j < c := by omega
    rcases Nat.eq_or_lt_of_le hpb with rfl | hpb2
    · rcases Nat.eq_or_lt_of_le hbj with rfl | hbj2
      · exact subset_rfl
      · exact habs j hbj2 hjc hj
    · exfalso
      have hbj2 : p < j := by omega
      have := hrun j hbj2 hjc hj
      rw [hmin p (le_refl p) hpb2] at this
      exact absurd this (by simp)

/-- `find?` returns the element at the first index satisfying the
predicate. -/
lemma find?_min_index {β : Type} (pred : β → Bool) (d0 : β) :
    ∀ (l : List β) (x : β), l.find? pred = some x →
      ∃ b, b < l.length ∧ l.getD b d0 = x ∧ ∀ i, i < b → pred (l.getD i d0) = false := by
  intro l
  induction l with
  | nil => intro x hx; simp at hx
  | cons y ys ih =>
    intro x hx
    by_cases hy : pred y = true
    · rw [List.find?_cons_of_pos _ hy] at hx
      refine ⟨0, by simp, by simpa using Option.some.inj hx, ?_⟩
      intro i hi
      omega
    · rw [List.find?_cons_of_neg _ hy] at hx
      rcases ih x hx with ⟨b, hb, hbx, hmin⟩
      refine ⟨b + 1, by simpa using hb, by simpa using hbx, ?_⟩
      intro i hi
      cases i with
      | zero =>
        simp only [List.getD_cons_zero]
        cases hpy : pred y
        · rfl
        · exact absurd hpy hy
      | succ i2 =>
        simp only [List.getD_cons_succ]
        exact hmin i2 (by omega)

lemma sortKeys_nodup {l : List (List α)} (h : l.Nodup) : (sortKeys l).Nodup :=
  (List.perm_insertionSort keyLe l).nodup_iff.mpr h

lemma sortKeys_sorted (l : List (List α)) : (sortKeys l).Pairwise keyLe :=
  List.sorted_insertionSort keyLe l

lemma mem_sortKeys {l : List (List α)} {k : List α} : k ∈ sortKeys l ↔ k ∈ l :=
  (List.perm_insertionSort keyLe l).mem_iff

lemma mergeSearchKeys_keys (u : List (List α × Finset M))
    (hnd : (dictKeys u).Nodup) : dictKeys (mergeSearchKeys u) = dictKeys u := by
  apply mergeLoop_keys _ _ 0 1 (by omega)
  intro i hi
  have h1 : (sortKeys (dictKeys u)).getD i [] ∈ sortKeys (dictKeys u) := by
    rw [List.getD_eq_getElem _ _ hi]
    exact List.getElem_mem _
  exact mem_sortKeys.mp h1

/-- After the merge, every key's record set is contained in the entry of
the lexicographically first (equivalently: shortest) live key that is a
prefix of it. -/
lemma mergeSearchKeys_absorb (u : List (List α × Finset M))
    (hnd : (dictKeys u).Nodup) :
    ∀ k ∈ dictKeys u,
      ∃ p2, (sortKeys (dictKeys u)).find? (fun q => startsKey q k) = some p2 ∧
        startsKey p2 k = true ∧ p2 ∈ dictKeys u ∧
        (dictGet u k).getD ∅ ⊆ (dictGet (mergeSearchKeys u) p2).getD ∅ := by
  intro k hk
  have hksnd : (sortKeys (dictKeys u)).Nodup := sortKeys_nodup hnd
  have hkssort : (sortKeys (dictKeys u)).Pairwise keyLe := sortKeys_sorted _
  have hkmem : k ∈ sortKeys (dictKeys u) := mem_sortKeys.mpr hk
  have hfind : ∃ p2, (sortKeys (dictKeys u)).find? (fun q => startsKey q k) = some p2 := by
    apply Option.isSome_iff_exists.mp
    rw [List.find?_isSome]
    exact ⟨k, hkmem, startsKey_refl k⟩
  rcases hfind with ⟨p2, hp2⟩
  have hpred : startsKey p2 k = true := by simpa using List.find?_some hp2
  have hp2mem : p2 ∈ sortKeys (dictKeys u) := List.mem_of_find?_eq_some hp2
  rcases find?_min_index _ ([] : List α) _ p2 hp2 with ⟨b, hb, hbx, hbmin⟩
  rcases List.getElem_of_mem hkmem with ⟨j, hj, hjx⟩
  have hjD : (sortKeys (dictKeys u)).getD j [] = k := by
    rw [List.getD_eq_getElem _ _ hj]
    exact hjx
  have hbj : b ≤ j := by
    by_contra hbj
    push_neg at hbj
    have hx := hbmin j hbj
    rw [hjD] at hx
    simp [startsKey_refl k] at hx
  have habs := mergeLoop_absorb (sortKeys (dictKeys u)) hksnd hkssort u 0 1 (by omega)
    (fun i h1 h2 _ => absurd h2 (by omega))
    (fun i h1 h2 _ => absurd h2 (by omega))
    b j (Nat.zero_le b) hbj hj
    (by rw [hbx, hjD]; exact hpred)
    (fun i _ hib => by
      have hx := hbmin i hib
      rw [hjD]
      simpa using hx)
  rw [hjD, hbx] at habs
  exact ⟨p2, hp2, hpred, mem_sortKeys.mp hp2mem, habs⟩

/-- Provenance through the whole merge: a record in the merged entry of
`q` came from `q`'s own pre-merge entry or from that of a live key that
`q` is a prefix of. -/
lemma mergeSearchKeys_provenance (u : List (List α × Finset M)) (q : List α) (x : M)
    (hx : x ∈ (dictGet (mergeSearchKeys u) q).getD ∅) :
    x ∈ (dictGet u q).getD ∅ ∨
      ∃ k2 ∈ dictKeys u, startsKey q k2 = true ∧ x ∈ (dictGet u k2).getD ∅ := by
  rcases mergeLoop_provenance (sortKeys (dictKeys u)) u 0 1 q x hx with h | ⟨j, hj, hjs, hjx⟩
  · exact Or.inl h
  · refine Or.inr ⟨(sortKeys (dictKeys u)).getD j [], ?_, hjs, hjx⟩
    have hmem : (sortKeys (dictKeys u)).getD j [] ∈ sortKeys (dictKeys u) := by
      rw [List.getD_eq_getElem _ _ hj]
      exact List.getElem_mem _
    exact mem_sortKeys.mp hmem

/-- In a sorted duplicate-free key list, the first key that is a prefix of
`k` is also the first key that is a prefix of any `k2` that `k` itself is
a prefix of (both equal the shortest live prefix). -/
lemma find?_prefix_stable {ks : List (List α)} (hnd : ks.Nodup) (hs : ks.Pairwise keyLe)
    {k k2 : List α} (hk : k ∈ ks) (hpre : startsKey k k2 = true)
    {p2 : List α} (h2 : ks.find? (fun q => startsKey q k) = some p2) :
    ks.find? (fun q => startsKey q k2) = some p2 := by
  have hp2k : startsKey p2 k = true := by simpa using List.find?_some h2
  have hp2k2 : startsKey p2 k2 = true := startsKey_trans _ _ _ hp2k hpre
  have hp2mem : p2 ∈ ks := List.mem_of_find?_eq_some h2
  rcases find?_min_index _ ([] : List α) _ p2 h2 with ⟨b, hb, hbx, hbmin⟩
  have hfind2 : ∃ q2, ks.find? (fun q => startsKey q k2) = some q2 := by
    apply Option.isSome_iff_exists.mp
    rw [List.find?_isSome]
    exact ⟨p2, hp2mem, by simpa using hp2k2⟩
  rcases hfind2 with ⟨q2, hq2⟩
  rcases find?_min_index _ ([] : List α) _ q2 hq2 with ⟨b2, hb2, hb2x, hb2min⟩
  have hq2k2 : startsKey q2 k2 = true := by simpa using List.find?_some hq2
  rcases List.getElem_of_mem hk with ⟨jk, hjk, hjkx⟩
  have hjkD : ks.getD jk [] = k := by
    rw [List.getD_eq_getElem _ _ hjk]
    exact hjkx
  rcases Nat.lt_trichotomy b2 b with hlt | heq | hgt
  · exfalso
    rcases startsKey_comparable q2 k k2 hq2k2 hpre with hq2pk | hkpq2
    · have := hbmin b2 hlt
      rw [hb2x] at this
      simp [hq2pk] at this
    · have hne : k ≠ q2 := by
        intro he
        have := hbmin b2 hlt
        rw [hb2x, ← he] at this
        simp [startsKey_refl] at this
      have hjkb2 : b2 < jk := by
        rcases Nat.lt_trichotomy b2 jk with h | h | h
        · exact h
        · exact absurd (by rw [← hb2x, h, hjkD]) hne
        · exfalso
          have := hb2min jk h
          rw [hjkD] at this
          simp [hpre] at this
      have hle1 : keyLeB q2 k = true := by
        have := keyLeB_getD_of_sorted hs (le_of_lt hjkb2) hjk
        rwa [hb2x, hjkD] at this
      have hle2 : keyLeB k q2 = true := startsKey_le _ _ hkpq2
      exact hne (keyLeB_antisymm _ _ hle2 hle1)
  · rw [hq2]
    rw [← hbx, ← heq, hb2x]
  · exfalso
    have := hb2min b hgt
    rw [hbx] at this
    simp [hp2k2] at this

lemma foldlM_option_preserve {β γ : Type} (f : γ → β → Option γ) (P : γ → Prop)
    (hf : ∀ g b g2, P g → f g b = some g2 → P g2) :
    ∀ (l : List β) (g g2 : γ), P g → l.foldlM f g = some g2 → P g2 := by
  intro l
  induction l with
  | nil =>
    intro g g2 hg h
    rw [List.foldlM_nil] at h
    exact (Option.some.inj h) ▸ hg
  | cons b bs ih =>
    intro g g2 hg h
    rw [List.foldlM_cons] at h
    cases hfb : f g b with
    | none =>
      rw [hfb] at h
      exact absurd h (by simp)
    | some g3 =>
      rw [hfb] at h
      exact ih g3 g2 (hf g b g3 hg hfb) (by simpa using h)

lemma searchInsKey_nodup {sd u u2 : List (List α × Finset M)} {k : List α} {m : M}
    (hnd : (dictKeys u).Nodup) (h : searchInsKey sd u k m = some u2) :
    (dictKeys u2).Nodup := by
  simp only [searchInsKey] at h
  have h1 : (dictKeys (if dictMem sd k then u else dictSet u k ∅)).Nodup := by
    split
    · exact hnd
    · exact dictKeys_nodup_dictSet _ hnd
  cases hg : dictGet (if dictMem sd k then u else dictSet u k ∅) k with
  | none =>
    simp only [hg] at h
    exact absurd h (by simp)
  | some s =>
    simp only [hg, Option.some.injEq] at h
    rw [← h]
    exact dictKeys_nodup_dictSet _ h1

lemma searchDelKey_nodup {sd u u2 : List (List α × Finset M)} {k : List α} {m : M}
    (hnd : (dictKeys u).Nodup) (h : searchDelKey sd u k m = some u2) :
    (dictKeys u2).Nodup := by
  unfold searchDelKey at h
  by_cases hm : dictMem sd k = true
  · rw [if_pos hm] at h
    cases hg : dictGet u k with
    | none =>
      simp only [hg] at h
      exact absurd h (by simp)
    | some s =>
      simp only [hg] at h
      by_cases hms : m ∈ s
      · rw [if_pos hms] at h
        simp only [Option.some.injEq] at h
        rw [← h]
        split
        · exact dictKeys_nodup_dictErase _ hnd
        · exact dictKeys_nodup_dictSet _ hnd
      · rw [if_neg hms] at h
        exact absurd h (by simp)
  · rw [if_neg hm] at h
    exact (Option.some.inj h) ▸ hnd

lemma searchInsertAll_inv {keysOf : M → List (List α)} {st st' : SearchState α M}
    {ms : List M} (hnd : (dictKeys st.unique).Nodup)
    (h : searchInsertAll keysOf st ms = some st') :
    st'.unique = st'.data ∧ ∃ u0, (dictKeys u0).Nodup ∧ st'.data = mergeSearchKeys u0 := by
  unfold searchInsertAll at h
  rcases Option.map_eq_some'.mp h with ⟨u, hu, hst⟩
  have hun : (dictKeys u).Nodup := by
    refine foldlM_option_preserve _ (fun g => (dictKeys g).Nodup) ?_ ms st.unique u hnd hu
    intro g mo g2 hg hstep
    exact foldlM_option_preserve _ (fun g => (dictKeys g).Nodup)
      (fun g3 k g4 hg3 hk => searchInsKey_nodup hg3 hk) _ g g2 hg hstep
  rw [← hst]
  exact ⟨rfl, u, hun, rfl⟩

lemma searchDeleteAll_inv {keysOf : M → List (List α)} {st st' : SearchState α M}
    {ms : List M} (hnd : (dictKeys st.unique).Nodup)
    (h : searchDeleteAll keysOf st ms = some st') :
    st'.unique = st'.data ∧ ∃ u0, (dictKeys u0).Nodup ∧ st'.data = mergeSearchKeys u0 := by
  unfold searchDeleteAll at h
  rcases Option.map_eq_some'.mp h with ⟨u, hu, hst⟩
  have hun : (dictKeys u).Nodup := by
    refine foldlM_option_preserve _ (fun g => (dictKeys g).Nodup) ?_ ms st.unique u hnd hu
    intro g mo g2 hg hstep
    exact foldlM_option_preserve _ (fun g => (dictKeys g).Nodup)
      (fun g3 k g4 hg3 hk => searchDelKey_nodup hg3 hk) _ g g2 hg hstep
  rw [← hst]
  exact ⟨rfl, u, hun, rfl⟩

/-- Invariant of every reachable index state: thanks to the shallow copy
and the in-place unions of the merge, `_unique` and `_data` are the same
map, and that map is the merge of some duplicate-free pre-merge map. -/
lemma searchReachable_inv {keysOf : M → List (List α)} {st : SearchState α M}
    (h : SearchReachable keysOf st) :
    st.unique = st.data ∧ ∃ u0, (dictKeys u0).Nodup ∧ st.data = mergeSearchKeys u0 := by
  induction h with
  | init =>
    refine ⟨rfl, [], by simp [dictKeys], ?_⟩
    show ([] : List (List α × Finset M)) = mergeSearchKeys []
    rw [mergeSearchKeys, mergeLoop.eq_def]
    simp [sortKeys, dictKeys]
  | insertAll ms hr hop ih =>
    rcases ih with ⟨he, u0, hn0, hm⟩
    refine searchInsertAll_inv ?_ hop
    rw [he, hm, mergeSearchKeys_keys u0 hn0]
    exact hn0
  | deleteAll ms hr hop ih =>
    rcases ih with ⟨he, u0, hn0, hm⟩
    refine searchDeleteAll_inv ?_ hop
    rw [he, hm, mergeSearchKeys_keys u0 hn0]
    exact hn0
  | reset ms hop => exact searchInsertAll_inv (by simp [dictKeys]) hop

/-- Claim C5(amended).  After every bulk mutation `_unique` and `_data`
are the *same* merged map (the merge's shallow copy and in-place `|=`
back-mutate `_unique`), and longer keys *stay live*, so a live key may
well be a proper prefix of another.  What the merge does guarantee is
absorption on the live map: every live key's record set is contained in
the entry of the first key, in sorted (lexicographic) order, that is a
prefix of it — the key itself when no shorter live prefix precedes it. -/
theorem search_merge_canonical (keysOf : M → List (List α)) (st : SearchState α M)
    (h : SearchReachable keysOf st) :
    st.unique = st.data ∧
    ∀ k ∈ dictKeys st.data,
      ∃ p2, (sortKeys (dictKeys st.data)).find? (fun q => startsKey q k) = some p2 ∧
        startsKey p2 k = true ∧ p2 ∈ dictKeys st.data ∧
        (dictGet st.data k).getD ∅ ⊆ (dictGet st.data p2).getD ∅ := by
  obtain ⟨he, u0, hn0, hm⟩ := searchReachable_inv h
  refine ⟨he, ?_⟩
  have hkeys : dictKeys st.data = dictKeys u0 := by
    rw [hm]
    exact mergeSearchKeys_keys u0 hn0
  intro k hk
  have hk0 : k ∈ dictKeys u0 := by rwa [hkeys] at hk
  rcases mergeSearchKeys_absorb u0 hn0 k hk0 with ⟨p2, hfind, hpre, hmem, habs⟩
  refine ⟨p2, by rw [hkeys]; exact hfind, hpre, by rw [hkeys]; exact hmem, ?_⟩
  intro x hx
  rw [hm] at hx
  rcases mergeSearchKeys_provenance u0 k x hx with hx0 | ⟨k2, hk2, hpre2, hx2⟩
  · rw [hm]
    exact habs hx0
  · rcases mergeSearchKeys_absorb u0 hn0 k2 hk2 with ⟨q2, hfind2, hpre2b, hmem2, habs2⟩
    have hq2 : q2 = p2 := by
      have hstable := find?_prefix_stable (sortKeys_nodup hn0) (sortKeys_sorted _)
        (mem_sortKeys.mpr hk0) hpre2 hfind
      rw [hfind2] at hstable
      exact Option.some.inj hstable
    rw [hm, ← hq2]
    exact habs2 hx2

/-- Key functions of two records, with keys `[0]` and `[0, 1]`. -/
def c5KeysOf : Nat → List (List Nat)
  | 0 => [[0]]
  | _ => [[0, 1]]

/-- The index state after `reset([record 0, record 1])`: both keys stay
live, the shorter one absorbed the longer one's set, and the back-mutation
through the shared set objects leaves `_unique` equal to `_data`. -/
def c5State : SearchState Nat Nat :=
  ⟨[([0], {0, 1}), ([0, 1], {1})], [([0], {0, 1}), ([0, 1], {1})]⟩

lemma c5_fold : (([0, 1] : List Nat).foldlM
    (fun u mo => ((c5KeysOf mo).filter (fun k => !k.isEmpty)).foldlM
      (fun u2 k => searchInsKey ([] : List (List Nat × Finset Nat)) u2 k mo) u)
    ([] : List (List Nat × Finset Nat))) =
      some [([0], {0}), ([0, 1], {1})] := by decide

lemma c5_merge : mergeSearchKeys [([0], ({0} : Finset Nat)), ([0, 1], {1})] =
    [([0], {0, 1}), ([0, 1], {1})] := by
  simp +decide [mergeSearchKeys, mergeLoop, sortKeys, dictKeys, keyLe, keyLeB,
    startsKey, dictGet, dictSet, List.insertionSort, List.orderedInsert]

lemma c5_reset : searchReset c5KeysOf [0, 1] = some c5State := by
  show (([0, 1] : List Nat).foldlM
      (fun u mo => ((c5KeysOf mo).filter (fun k => !k.isEmpty)).foldlM
        (fun u2 k => searchInsKey ([] : List (List Nat × Finset Nat)) u2 k mo) u)
      ([] : List (List Nat × Finset Nat))).map
      (fun u => (⟨mergeSearchKeys u, mergeSearchKeys u⟩ : SearchState Nat Nat)) = some c5State
  rw [c5_fold, Option.map_some', c5_merge]
  rfl

/-- Claim C5, counterexample to the claim as stated: a state reachable by a
single reset holds the live keys `[0]` and `[0, 1]`, and the former is a
proper prefix of the latter — the merge never removes the longer key, so
the live key set is not "canonical" in the claimed sense. -/
theorem search_prefix_counterexample :
    SearchReachable c5KeysOf c5State ∧
    [0] ∈ dictKeys c5State.data ∧ [0, 1] ∈ dictKeys c5State.data ∧
    startsKey [0] [0, 1] = true ∧ [0] ≠ [0, 1] :=
  ⟨SearchReachable.reset [0, 1] c5_reset, by decide, by decide, by decide, by decide⟩

/-- Witness for C5: the amended theorem applied to the concrete reachable
state `c5State` and its live key `[0, 1]`. -/
theorem search_merge_canonical_witness :
    c5State.unique = c5State.data ∧
    (∃ p2, (sortKeys (dictKeys c5State.data)).find? (fun q => startsKey q [0, 1]) = some p2 ∧
      startsKey p2 [0, 1] = true ∧ p2 ∈ dictKeys c5State.data ∧
      (dictGet c5State.data [0, 1]).getD ∅ ⊆ (dictGet c5State.data p2).getD ∅) := by
  have h := search_merge_canonical c5KeysOf c5State (SearchReachable.reset [0, 1] c5_reset)
  exact ⟨h.1, h.2 [0, 1] (by decide)⟩

/-- Key functions for the records named "Alex" (0), "Alexandru" (1) and
"Alexandra" (2). -/
def c9KeysOf : Nat → List (List Char)
  | 0 => [['A', 'l', 'e', 'x']]
  | 1 => [['A', 'l', 'e', 'x', 'a', 'n', 'd', 'r', 'u']]
  | _ => [['A', 'l', 'e', 'x', 'a', 'n', 'd', 'r', 'a']]

/-- The index state after inserting the three names into an empty index:
"Alex" sorts first and absorbs both longer keys; through the shared set
objects `_unique` ends up equal to the merged `_data`. -/
def c9State : SearchState Char Nat :=
  ⟨[(['A', 'l', 'e', 'x'], {0, 1, 2}),
    (['A', 'l', 'e', 'x', 'a', 'n', 'd', 'r', 'u'], {1}),
    (['A', 'l', 'e', 'x', 'a', 'n', 'd', 'r', 'a'], {2})],
   [(['A', 'l', 'e', 'x'], {0, 1, 2}),
    (['A', 'l', 'e', 'x', 'a', 'n', 'd', 'r', 'u'], {1}),
    (['A', 'l', 'e', 'x', 'a', 'n', 'd', 'r', 'a'], {2})]⟩

lemma c9_fold : (([0, 1, 2] : List Nat).foldlM
    (fun u mo => ((c9KeysOf mo).filter (fun k => !k.isEmpty)).foldlM
      (fun u2 k => searchInsKey ([] : List (List Char × Finset Nat)) u2 k mo) u)
    ([] : List (List Char × Finset Nat))) =
      some [(['A', 'l', 'e', 'x'], {0}),
        (['A', 'l', 'e', 'x', 'a', 'n', 'd', 'r', 'u'], {1}),
        (['A', 'l', 'e', 'x', 'a', 'n', 'd', 'r', 'a'], {2})] := by decide

lemma c9_merge : mergeSearchKeys
    [(['A', 'l', 'e', 'x'], ({0} : Finset Nat)),
     (['A', 'l', 'e', 'x', 'a', 'n', 'd', 'r', 'u'], {1}),
     (['A', 'l', 'e', 'x', 'a', 'n', 'd', 'r', 'a'], {2})] =
    [(['A', 'l', 'e', 'x'], {0, 1, 2}),
     (['A', 'l', 'e', 'x', 'a', 'n', 'd', 'r', 'u'], {1}),
     (['A', 'l', 'e', 'x', 'a', 'n', 'd', 'r', 'a'], {2})] := by
  simp +decide [mergeSearchKeys, mergeLoop, sortKeys, dictKeys, keyLe, keyLeB,
    startsKey, dictGet, dictSet, List.insertionSort, List.orderedInsert]

lemma c9_reset : searchReset c9KeysOf [0, 1, 2] = some c9State := by
  show (([0, 1, 2] : List Nat).foldlM
      (fun u mo => ((c9KeysOf mo).filter (fun k => !k.isEmpty)).foldlM
        (fun u2 k => searchInsKey ([] : List (List Char × Finset Nat)) u2 k mo) u)
      ([] : List (List Char × Finset Nat))).map
      (fun u => (⟨mergeSearchKeys u, mergeSearchKeys u⟩ : SearchState Char Nat)) = some c9State
  rw [c9_fold, Option.map_some', c9_merge]
  rfl

/-- Claim C9 (confirmed).  Inserting three records keyed "Alex",
"Alexandru" and "Alexandra" into an empty prefix-search index, a lookup
for "Alex" hits the exact entry, which absorbed all three records; a
lookup for "Alexan" finds no exact entry and falls back to the substring
scan, collecting exactly the two longer names. -/
theorem search_get_alex_example :
    ∃ st : SearchState Char Nat, searchReset c9KeysOf [0, 1, 2] = some st ∧
      searchGet st ['A', 'l', 'e', 'x'] = {0, 1, 2} ∧
      searchGet st ['A', 'l', 'e', 'x', 'a', 'n'] = {1, 2} :=
  ⟨c9State, c9_reset, by decide, by decide⟩

/-- Claim C6 (amended).  At the index layer an absent key is silent for
lookups in every variant (the `get`s return `None`), and for deletes in
the bucket, sorted-bucket and prefix-search variants (the key is skipped);
but `UniqueIndex._delete_inner` runs an unguarded `del self._data[key]`,
so deleting a record whose extracted key is absent raises `KeyError`
(`none`), and `update` — delete then insert — propagates it. -/
theorem index_absent_key_outcomes :
    (∀ (K M : Type) [DecidableEq K] (d : List (K × M)) (k : K),
      dictMem d k = false → uniqueGet d k = none) ∧
    (∀ (K M : Type) [DecidableEq K]
      (f : M → Option K) (fs : List (M → Option K)) (d : List (K × M)) (m : M) (k : K),
      f m = some k → dictMem d k = false → uniqueDelete (f :: fs) d m = none) ∧
    (∀ (K M : Type) [DecidableEq K]
      (f : M → Option K) (fs : List (M → Option K)) (d : List (K × M)) (o n2 : M) (k : K),
      f o = some k → dictMem d k = false → uniqueUpdate (f :: fs) d o n2 = none) ∧
    (∀ (K M : Type) [DecidableEq K] [DecidableEq M]
      (f : M → Option K) (fs : List (M → Option K)) (d : List (K × Finset M)) (m : M) (k : K),
      f m = some k → dictMem d k = false → bucketDelete (f :: fs) d m = some d) ∧
    (∀ (K M : Type) [DecidableEq K] [DecidableEq M]
      (f : M → Option K) (fs : List (M → Option K)) (d : List (K × List M)) (m : M) (k : K),
      f m = some k → dictMem d k = false → sortedDelete (f :: fs) d m = some d) ∧
    (∀ (β N : Type) [LinearOrder β] [DecidableEq N]
      (sd u : List (List β × Finset N)) (k : List β) (m : N),
      dictMem sd k = false → searchDelKey sd u k m = some u) := by
  refine ⟨?_, ?_, ?_, ?_, ?_, ?_⟩
  · intro K M _ d k h
    exact dictGet_none_of_not_mem h
  · intro K M _ f fs d m k hf hm
    simp [uniqueDelete, hf, hm]
  · intro K M _ f fs d o n2 k hf hm
    simp [uniqueUpdate, uniqueDelete, hf, hm]
  · intro K M _ _ f fs d m k hf hm
    simp [bucketDelete, hf, hm]
  · intro K M _ _ f fs d m k hf hm
    simp [sortedDelete, hf, hm]
  · intro β N _ _ sd u k m h
    simp [searchDelKey, h]

/-- Claim C6, counterexample to the claim as stated: deleting a record
whose key is absent from a unique index raises `KeyError` (`none`), and so
does the update that deletes first — absence at the index layer is not
always a silent outcome. -/
theorem index_absent_key_counterexample :
    uniqueDelete [fun n : Nat => some n] ([] : List (Nat × Nat)) 0 = none ∧
    uniqueUpdate [fun n : Nat => some n] ([] : List (Nat × Nat)) 0 1 = none :=
  ⟨rfl, rfl⟩

/-- Witness for C6 at concrete inputs with key 0 absent from each index. -/
theorem index_absent_key_outcomes_witness :
    dictMem ([(1, 1)] : List (Nat × Nat)) 0 = false ∧
    uniqueGet ([(1, 1)] : List (Nat × Nat)) 0 = none ∧
    uniqueDelete [fun n : Nat => some n] ([(1, 1)] : List (Nat × Nat)) 0 = none ∧
    bucketDelete [fun n : Nat => some n] ([] : List (Nat × Finset Nat)) 0 = some [] ∧
    sortedDelete [fun n : Nat => some n] ([] : List (Nat × List Nat)) 0 = some [] ∧
    searchDelKey ([] : List (List Nat × Finset Nat)) [([0], {1})] [0] 1 = some [([0], {1})] :=
  ⟨rfl,
   index_absent_key_outcomes.1 Nat Nat [(1, 1)] 0 rfl,
   index_absent_key_outcomes.2.1 Nat Nat (fun n => some n) [] [(1, 1)] 0 0 rfl rfl,
   index_absent_key_outcomes.2.2.2.1 Nat Nat (fun n => some n) [] [] 0 0 rfl rfl,
   index_absent_key_outcomes.2.2.2.2.1 Nat Nat (fun n => some n) [] [] 0 0 rfl rfl,
   index_absent_key_outcomes.2.2.2.2.2 Nat Nat [] [([0], {1})] [0] 1 rfl⟩

end SearchIndex

end T5Bot
